import Mathlib

/-!
# TikZiT application object (`src/tikzit.cpp`): colour table, update check, window list

A shallow embedding of the `Tikzit` class.  Qt values are modelled as follows.

* `QString` is a list of characters.
* `QColor` keeps the colour spec and the 16-bit channels that `QColor::operator==` compares.
* `QRegularExpression` is a backtracking matcher over a small regular-expression syntax tree
  (greedy quantifiers, numbered capture groups, `^` and `$`); the two patterns of the source
  are transcribed token by token.
* `QVersionNumber` is a list of integer segments.
* Pointers (`MainWindow*`, `TikzStyles*`) are natural-number addresses, `nullptr` is `none`.
* Calls into the toolkit and into collaborators (`quit`, message boxes, `reloadStyles`, ...)
  are recorded, in order, in an event log carried by the state.
-/

namespace TikzitModel

/-! ## Strings and characters -/

/-- Qt string, as the list of its characters. -/
abbrev QString := List Char

/-- ASCII decimal digit, the class `[0-9]`. -/
def isDigit09 (c : Char) : Bool := decide (48 ≤ c.toNat) && decide (c.toNat ≤ 57)

/-- The class `[1-9]`. -/
def isDigit19 (c : Char) : Bool := decide (49 ≤ c.toNat) && decide (c.toNat ≤ 57)

/-- The class `\s` of the regular expression engine (no Unicode properties):
space, `\t`, `\n`, `\v`, `\f`, `\r`. -/
def isReSpace (c : Char) : Bool :=
  decide (c.toNat = 32) || (decide (9 ≤ c.toNat) && decide (c.toNat ≤ 13))

/-- The character test `QChar::isSpace`: ASCII white space, NEL, NBSP and the Unicode
separator categories Zs, Zl, Zp. -/
def QChar_isSpace (c : Char) : Bool :=
  let u := c.toNat
  decide (u = 0x20) || (decide (0x09 ≤ u) && decide (u ≤ 0x0d)) || decide (u = 0x85) ||
  decide (u = 0xa0) || decide (u = 0x1680) || (decide (0x2000 ≤ u) && decide (u ≤ 0x200a)) ||
  decide (u = 0x2028) || decide (u = 0x2029) || decide (u = 0x202f) || decide (u = 0x205f) ||
  decide (u = 0x3000)

/-- Numeric value of a decimal digit character. -/
def digitVal (c : Char) : Nat := c.toNat - 48

/-- Value of a string of decimal digits, most significant digit first. -/
def decVal (ds : List Char) : Nat := ds.foldl (fun acc c => 10 * acc + digitVal c) 0

/-- The character of a decimal digit `d < 10`. -/
def digitChar (d : Nat) : Char :=
  match d with
  | 0 => '0' | 1 => '1' | 2 => '2' | 3 => '3' | 4 => '4'
  | 5 => '5' | 6 => '6' | 7 => '7' | 8 => '8' | _ => '9'

/-- Decimal digits of `n`, most significant first; `fuel` bounds the number of digits. -/
def digitsFuel : Nat → Nat → List Char
  | 0, _ => []
  | fuel + 1, n =>
    if n < 10 then [digitChar n] else digitsFuel fuel (n / 10) ++ [digitChar (n % 10)]

/-- Decimal rendering of a natural number. -/
def natStr (n : Nat) : QString := digitsFuel (n + 1) n

/-- The conversion `QString::number(int)`: decimal, with a leading minus sign when negative. -/
def QString_number (n : Int) : QString :=
  if n < 0 then '-' :: natStr n.natAbs else natStr n.toNat

/-- Largest `int`. -/
def INT_MAX : Nat := 2147483647

/-- Largest `unsigned long long`. -/
def ULLONG_MAX : Nat := 18446744073709551615

/-- Drop leading characters satisfying `p`. -/
def dropWhileB (p : Char → Bool) : List Char → List Char
  | [] => []
  | c :: t => if p c then dropWhileB p t else c :: t

/-- Longest leading run of characters satisfying `p`. -/
def takeWhileB (p : Char → Bool) : List Char → List Char
  | [] => []
  | c :: t => if p c then c :: takeWhileB p t else []

/-- The conversion `QString::toInt()` (base 10, C locale): surrounding white space is
skipped, an optional sign is read, then decimal digits up to the end of the string; the
result is 0 when the text is not such a number or does not fit an `int`. -/
def QString_toInt (s : QString) : Int :=
  let t := (dropWhileB QChar_isSpace (dropWhileB QChar_isSpace s).reverse).reverse
  let neg := t.head? = some '-'
  let body := if t.head? = some '-' ∨ t.head? = some '+' then t.tail else t
  if body = [] ∨ ¬ body.all isDigit09 then 0
  else if neg then
    (if decVal body ≤ INT_MAX + 1 then - (decVal body : Int) else 0)
  else
    (if decVal body ≤ INT_MAX then (decVal body : Int) else 0)

/-- Scanner of `QString::simplified()`: `out` tells that a word has been emitted, `sep`
that white space was seen after it, so one space is owed before the next word. -/
def simplifiedGo (out sep : Bool) : List Char → List Char
  | [] => []
  | c :: t =>
    if QChar_isSpace c then simplifiedGo out out t
    else if sep then ' ' :: c :: simplifiedGo true false t
    else c :: simplifiedGo true false t

/-- The function `QString::simplified()`: white space is removed from both ends and every
internal run of white space is replaced by one space. -/
def simplified (s : QString) : QString := simplifiedGo false false s

/-! ## Regular expressions (`QRegularExpression`) -/

/-- Syntax of the regular expressions used by the source. -/
inductive Re where
  | chr (c : Char)
  | cls (p : Char → Bool)
  | seq (a b : Re)
  | star (r : Re)
  | opt (r : Re)
  | group (n : Nat) (r : Re)
  | bol
  | eol

/-- The quantifier `r+`, one repetition followed by `r*`. -/
def Re.plus (r : Re) : Re := Re.seq r (Re.star r)

/-- A literal word, character by character. -/
def Re.lit : List Char → Re → Re
  | [], r => r
  | c :: t, r => Re.seq (Re.chr c) (Re.lit t r)

/-- State of a match attempt: number of characters before the current position, the
remaining subject, and the captures made so far (latest first). -/
structure MState where
  pos : Nat
  rest : List Char
  caps : List (Nat × QString)
deriving DecidableEq, Repr

/-- Greedy repetition: try one more iteration of `step`, and only if everything after it
fails continue with what follows.  An iteration that consumes nothing ends the loop. -/
def starLoop (step : MState → (MState → Option MState) → Option MState) :
    Nat → MState → (MState → Option MState) → Option MState
  | 0, s, k => k s
  | fuel + 1, s, k =>
    (step s (fun s1 =>
      if s1.rest.length < s.rest.length then starLoop step fuel s1 k else k s1)).orElse
      (fun _ => k s)

/-- Backtracking matcher: `Re.run r s k` matches `r` at state `s` and hands every state
reached to the continuation `k`, in the order of preference of the engine; the first
success is the result. -/
def Re.run : Re → MState → (MState → Option MState) → Option MState
  | Re.chr c, s, k =>
    match s.rest with
    | [] => none
    | d :: t => if d = c then k ⟨s.pos + 1, t, s.caps⟩ else none
  | Re.cls p, s, k =>
    match s.rest with
    | [] => none
    | d :: t => if p d then k ⟨s.pos + 1, t, s.caps⟩ else none
  | Re.seq a b, s, k => Re.run a s (fun s1 => Re.run b s1 k)
  | Re.star r, s, k => starLoop (Re.run r) s.rest.length s k
  | Re.opt r, s, k => (Re.run r s k).orElse (fun _ => k s)
  | Re.group n r, s, k =>
    Re.run r s (fun s1 =>
      k ⟨s1.pos, s1.rest, (n, s.rest.take (s.rest.length - s1.rest.length)) :: s1.caps⟩)
  | Re.bol, s, k => if s.pos = 0 then k s else none
  | Re.eol, s, k => if s.rest = [] ∨ s.rest = ['\n'] then k s else none

/-- Search for the leftmost match, trying every start offset in turn. -/
def Re.search (re : Re) : Nat → List Char → Option MState
  | pos, [] => Re.run re ⟨pos, [], []⟩ some
  | pos, c :: t => (Re.run re ⟨pos, c :: t, []⟩ some).orElse (fun _ => Re.search re (pos + 1) t)

/-- The call `re.match(subject)`. -/
def Re.doMatch (re : Re) (subject : QString) : Option MState := Re.search re 0 subject

/-- The test `m.hasMatch()`. -/
def hasMatch (m : Option MState) : Bool := m.isSome

/-- The accessor `m.captured(n)`: the text of group `n`, empty when the group took no part
in the match or there is no match. -/
def captured (m : Option MState) (n : Nat) : QString :=
  match m with
  | none => []
  | some s => (s.caps.lookup n).getD []

/-- The fragment `\s*`. -/
def reWs : Re := Re.star (Re.cls isReSpace)

/-- The fragment `([0-9]+)` as capture group `n`. -/
def reNum (n : Nat) : Re := Re.group n (Re.plus (Re.cls isDigit09))

/-- The colour pattern
`^rgb\s*,\s*255\s*:\s*red\s*,\s*([0-9]+)\s*;\s*green\s*,\s*([0-9]+)\s*;\s*blue\s*,\s*([0-9]+)\s*$`. -/
def colorRe : Re :=
  Re.seq Re.bol <|
  Re.lit ['r', 'g', 'b'] <| Re.seq reWs <| Re.seq (Re.chr ',') <| Re.seq reWs <|
  Re.lit ['2', '5', '5'] <| Re.seq reWs <| Re.seq (Re.chr ':') <| Re.seq reWs <|
  Re.lit ['r', 'e', 'd'] <| Re.seq reWs <| Re.seq (Re.chr ',') <| Re.seq reWs <|
  Re.seq (reNum 1) <| Re.seq reWs <| Re.seq (Re.chr ';') <| Re.seq reWs <|
  Re.lit ['g', 'r', 'e', 'e', 'n'] <| Re.seq reWs <| Re.seq (Re.chr ',') <| Re.seq reWs <|
  Re.seq (reNum 2) <| Re.seq reWs <| Re.seq (Re.chr ';') <| Re.seq reWs <|
  Re.lit ['b', 'l', 'u', 'e'] <| Re.seq reWs <| Re.seq (Re.chr ',') <| Re.seq reWs <|
  Re.seq (reNum 3) <| Re.seq reWs Re.eol

/-- The version pattern `^[1-9]+(\.[0-9]+)*(-[rR][cC]([0-9]+))?$`. -/
def versionRe : Re :=
  Re.seq Re.bol <|
  Re.seq (Re.plus (Re.cls isDigit19)) <|
  Re.seq (Re.star (Re.group 1 (Re.seq (Re.chr '.') (Re.plus (Re.cls isDigit09))))) <|
  Re.seq (Re.opt (Re.group 2 (
    Re.seq (Re.chr '-') <|
    Re.seq (Re.cls (fun c => c = 'r' || c = 'R')) <|
    Re.seq (Re.cls (fun c => c = 'c' || c = 'C')) (reNum 3))))
  Re.eol

/-! ## Colours (`QColor`) -/

/-- Colour specs that this code constructs. -/
inductive Spec where
  | Invalid
  | Rgb
deriving DecidableEq, Repr

/-- A colour: its spec and the five 16-bit fields; `operator==` compares all of them. -/
structure QColor where
  cspec : Spec
  alpha : Nat
  red : Nat
  green : Nat
  blue : Nat
  pad : Nat
deriving DecidableEq, Repr

/-- Largest `unsigned short`. -/
def USHRT_MAX : Nat := 65535

/-- The default constructor `QColor()`: an invalid colour. -/
def QColor.invalid : QColor := ⟨Spec.Invalid, USHRT_MAX, 0, 0, 0, 0⟩

/-- The constructor `QColor(int r, int g, int b)` with the default `a = 255`: channels
outside 0..255 give the invalid colour, otherwise every 8-bit channel is widened by
`* 0x101`. -/
def QColor.ofRgb (r g b : Int) : QColor :=
  if r < 0 ∨ 255 < r ∨ g < 0 ∨ 255 < g ∨ b < 0 ∨ 255 < b then QColor.invalid
  else ⟨Spec.Rgb, 255 * 0x101, r.toNat * 0x101, g.toNat * 0x101, b.toNat * 0x101, 0⟩

/-- A `qreal` argument given as the exact fraction `num / den`, `den > 0`.  The source
only passes 0, 0.25, 0.5, 0.75 and 1, all exact binary fractions, so the arithmetic below
computes what the floating-point code computes. -/
structure QReal where
  num : Int
  den : Nat
deriving DecidableEq, Repr

/-- Rounding `qRound(x * k)` of a non-negative product: `int(x * k + 0.5)`. -/
def qRoundMul (x : QReal) (k : Nat) : Nat := ((2 * x.num * k + x.den) / (2 * x.den)).toNat

/-- The range test of `fromRgbF`: `x < 0.0 || x > 1.0`. -/
def QReal.outOfRange (x : QReal) : Bool := decide (x.num < 0) || decide ((x.den : Int) < x.num)

/-- The factory `QColor::fromRgbF(r, g, b)` with the default `a = 1.0`. -/
def QColor.fromRgbF (r g b : QReal) : QColor :=
  if r.outOfRange || g.outOfRange || b.outOfRange then QColor.invalid
  else ⟨Spec.Rgb, qRoundMul ⟨1, 1⟩ USHRT_MAX, qRoundMul r USHRT_MAX, qRoundMul g USHRT_MAX,
        qRoundMul b USHRT_MAX, 0⟩

/-- The accessor `QColor::isValid()`. -/
def QColor.isValid (c : QColor) : Bool := decide (c.cspec ≠ Spec.Invalid)

/-- The accessor `QColor::red()`: the high byte of the 16-bit channel. -/
def QColor.red8 (c : QColor) : Int := (c.red / 256 : Nat)

/-- The accessor `QColor::green()`. -/
def QColor.green8 (c : QColor) : Int := (c.green / 256 : Nat)

/-- The accessor `QColor::blue()`. -/
def QColor.blue8 (c : QColor) : Int := (c.blue / 256 : Nat)

/-! ## Version numbers (`QVersionNumber`) -/

/-- The test `ascii_isspace` of the number parser. -/
def ascii_isspace (c : Char) : Bool :=
  (decide (9 ≤ c.toNat) && decide (c.toNat ≤ 13)) || decide (c.toNat = 32)

/-- The parser `qstrtoull(start, &end, 10, &ok)`: leading white space, an optional `+`, then
decimal digits.  The result is the value and the text from `end` on; `none` stands for
`ok == false` (a minus sign, no digit, or a value above `ULLONG_MAX`). -/
def qstrtoull (s : List Char) : Option (Nat × List Char) :=
  let b := dropWhileB ascii_isspace s
  if b.head? = some '-' then none
  else
    let b1 := if b.head? = some '+' then b.tail else b
    let ds := takeWhileB isDigit09 b1
    if ds = [] then none
    else if ULLONG_MAX < decVal ds then none
    else some (decVal ds, dropWhileB isDigit09 b1)

/-- The loop of `QVersionNumber::fromString`: read a number, stop when there is none or it
exceeds `INT_MAX`, otherwise keep it and go on if a `.` and at least one more character
follow.  Every round consumes a character, so `fuel` = length of the text + 1 is enough. -/
def fromStringLoop : Nat → List Char → List Int
  | 0, _ => []
  | fuel + 1, s =>
    match qstrtoull s with
    | none => []
    | some (v, rest) =>
      if INT_MAX < v then []
      else
        (v : Int) ::
          (match rest with
           | '.' :: t => if t ≠ [] then fromStringLoop fuel t else []
           | _ => [])

/-- The factory `QVersionNumber::fromString`: the leading dot-separated numeric segments;
any text after them is ignored.  (The conversion to Latin-1 done first only replaces
characters that are neither digits, dots, signs nor white space.) -/
def QVersionNumber_fromString (s : QString) : List Int := fromStringLoop (s.length + 1) s

/-- The method `QVersionNumber::normalized`: trailing zero segments are removed. -/
def normalized (v : List Int) : List Int := (v.reverse.dropWhile (fun x => x == 0)).reverse

/-- The function `QVersionNumber::compare`: the difference of the first pair of segments
that differ; when one version is a proper extension of the other, the first extra segment
decides (a zero counts as larger). -/
def QVersionNumber_compare : List Int → List Int → Int
  | a :: as, b :: bs => if a ≠ b then a - b else QVersionNumber_compare as bs
  | a :: _, [] => if a ≠ 0 then a else 1
  | [], b :: _ => if b ≠ 0 then -b else -1
  | [], [] => 0

/-- The accessor `segmentAt`, 0 beyond the last segment; `majorVersion`, `minorVersion` and
`microVersion` are `segmentAt` 0, 1 and 2. -/
def segmentAt (v : List Int) (i : Nat) : Int := v.getD i 0

/-! ## The update check -/

/-- Kinds of message box. -/
inductive BoxKind where
  | information
  | warning
  | question
deriving DecidableEq, Repr

/-- A message box shown to the user: kind, title and text. -/
structure Dialog where
  kind : BoxKind
  title : QString
  text : QString
deriving DecidableEq, Repr

/-- What `updateReply` reads from the network reply: `isReadable()` and the text
`QString::fromUtf8(reply->read(200))`, the decoded first 200 bytes of the body. -/
structure QNetworkReply where
  isReadable : Bool
  text : QString
deriving DecidableEq, Repr

/-- The reading of the release-candidate number:
`(!m.captured(3).isEmpty()) ? m.captured(3).toInt() : 1000`. -/
def rcOf (m : Option MState) : Int :=
  if captured m 3 ≠ [] then QString_toInt (captured m 3) else 1000

/-- The information box of `updateReply`. -/
def updateAvailableBox (TIKZIT_VERSION strLatest : QString) : Dialog :=
  { kind := BoxKind.information
    title := "Update available".toList
    text := "<p><b>A new version of TikZiT is available!</b></p><p><i>current version: ".toList
      ++ TIKZIT_VERSION ++ "<br />latest version: ".toList ++ strLatest
      ++ "</i></p><p>Download it now from: <a href=\"https://tikzit.github.io\">tikzit.github.io</a>.</p>".toList }

/-- The warning box of `updateReply`. -/
def invalidResponseBox : Dialog :=
  { kind := BoxKind.warning
    title := "Invalid response".toList
    text := "<p>Got invalid version response from <a href=\"https://tikzit.github.io\">tikzit.github.io</a>.</p>".toList }

/-- The method `Tikzit::updateReply`, as the list of message boxes it shows.  The macro
`TIKZIT_VERSION` comes from a header outside the sources at hand and is a parameter. -/
def updateReply (TIKZIT_VERSION : QString) (reply : QNetworkReply) (manual : Bool) :
    List Dialog :=
  if !reply.isReadable then []
  else
    let strLatest := simplified reply.text
    let m0 := Re.doMatch versionRe TIKZIT_VERSION
    let rcCurrent := rcOf m0
    let m := Re.doMatch versionRe strLatest
    if hasMatch m then
      let current := normalized (QVersionNumber_fromString TIKZIT_VERSION)
      let latest := normalized (QVersionNumber_fromString strLatest)
      let rcLatest := rcOf m
      if 0 < QVersionNumber_compare latest current ∨
          (QVersionNumber_compare latest current = 0 ∧ rcCurrent < rcLatest) then
        let std := QString_number (segmentAt latest 0) ++ ['.'] ++
          QString_number (segmentAt latest 1) ++ ['.'] ++ QString_number (segmentAt latest 2)
        let shown := if rcLatest ≠ 1000 then std ++ "-rc".toList ++ QString_number rcLatest
          else std
        [updateAvailableBox TIKZIT_VERSION shown]
      else []
    else if manual then [invalidResponseBox]
    else []

/-- Whether a run of `updateReply` showed the box titled "Update available". -/
def reportsUpdate (out : List Dialog) : Bool :=
  out.any (fun d => d.kind == BoxKind.information && d.title == "Update available".toList)

/-- Whether a run of `updateReply` showed the warning titled "Invalid response". -/
def reportsInvalid (out : List Dialog) : Bool :=
  out.any (fun d => d.kind == BoxKind.warning && d.title == "Invalid response".toList)

/-! ## The application object -/

/-- Address of a `MainWindow`. -/
abbrev WinPtr := Nat

/-- Address of a `TikzStyles` repository. -/
abbrev StylesPtr := Nat

/-- Address of a `LatexProcess`. -/
abbrev ProcPtr := Nat

/-- Calls made by `Tikzit` into the toolkit and its collaborators. -/
inductive Event where
  | quit
  | messageBox (d : Dialog)
  | reloadStyles (w : WinPtr)
  | windowShow (w : WinPtr)
  | windowRestorePosition (w : WinPtr)
  | windowOpen (w : WinPtr) (fileName : QString)
  | windowRaise (w : WinPtr)
  | windowActivate (w : WinPtr)
  | stylesDeleteLater (st : Option StylesPtr)
  | setStandardColor (i : Nat) (c : QColor)
  | setUpdatesChecked (w : WinPtr) (check : Bool)
  | settingsSetCheckForUpdates (check : Bool)
  | networkGet (manual : Bool)
  | settingsSetValue (key value : QString)
  | procKill (p : ProcPtr)
  | procDeleteLater (p : ProcPtr)
  | connectPreviewFinished (p : ProcPtr)
  | procMakePreview (p : ProcPtr) (source : QString)
  | previewShow
  | previewRestorePosition
  | previewRaise
  | previewActivate
deriving DecidableEq, Repr

/-- The fields of `Tikzit` that the operations below read or write, and the log of the
calls made so far (oldest first). -/
structure Tikzit where
  _styleFile : QString
  _styleFilePath : QString
  _styles : Option StylesPtr
  _windows : List WinPtr
  _activeWindow : Option WinPtr
  _colNames : List QString
  _cols : List QColor
  _latex : Option ProcPtr
  log : List Event
deriving DecidableEq, Repr

/-- The constructor `Tikzit::Tikzit()`: style file `"[no styles]"`, no active window, empty
lists. -/
def Tikzit.new : Tikzit :=
  { _styleFile := "[no styles]".toList, _styleFilePath := [], _styles := none,
    _windows := [], _activeWindow := none, _colNames := [], _cols := [],
    _latex := none, log := [] }

/-- The 19 names appended by `initColors`. -/
def fixedColNames : List QString :=
  [ "black".toList, "darkgray".toList, "gray".toList, "lightgray".toList, "white".toList,
    "red".toList, "orange".toList, "yellow".toList, "green".toList, "blue".toList,
    "purple".toList,
    "brown".toList, "olive".toList, "lime".toList, "cyan".toList, "teal".toList,
    "magenta".toList, "violet".toList, "pink".toList ]

/-- The 19 colours appended by `initColors`, in the order of the names. -/
def fixedCols : List QColor :=
  [ QColor.fromRgbF ⟨0, 1⟩ ⟨0, 1⟩ ⟨0, 1⟩,
    QColor.fromRgbF ⟨1, 4⟩ ⟨1, 4⟩ ⟨1, 4⟩,
    QColor.fromRgbF ⟨1, 2⟩ ⟨1, 2⟩ ⟨1, 2⟩,
    QColor.fromRgbF ⟨3, 4⟩ ⟨3, 4⟩ ⟨3, 4⟩,
    QColor.fromRgbF ⟨1, 1⟩ ⟨1, 1⟩ ⟨1, 1⟩,
    QColor.fromRgbF ⟨1, 1⟩ ⟨0, 1⟩ ⟨0, 1⟩,
    QColor.fromRgbF ⟨1, 1⟩ ⟨1, 2⟩ ⟨0, 1⟩,
    QColor.fromRgbF ⟨1, 1⟩ ⟨1, 1⟩ ⟨0, 1⟩,
    QColor.fromRgbF ⟨0, 1⟩ ⟨1, 1⟩ ⟨0, 1⟩,
    QColor.fromRgbF ⟨0, 1⟩ ⟨0, 1⟩ ⟨1, 1⟩,
    QColor.fromRgbF ⟨3, 4⟩ ⟨0, 1⟩ ⟨1, 4⟩,
    QColor.fromRgbF ⟨3, 4⟩ ⟨1, 2⟩ ⟨1, 4⟩,
    QColor.fromRgbF ⟨1, 2⟩ ⟨1, 2⟩ ⟨0, 1⟩,
    QColor.fromRgbF ⟨3, 4⟩ ⟨1, 1⟩ ⟨0, 1⟩,
    QColor.fromRgbF ⟨0, 1⟩ ⟨1, 1⟩ ⟨1, 1⟩,
    QColor.fromRgbF ⟨0, 1⟩ ⟨1, 2⟩ ⟨1, 2⟩,
    QColor.fromRgbF ⟨1, 1⟩ ⟨0, 1⟩ ⟨1, 1⟩,
    QColor.fromRgbF ⟨1, 2⟩ ⟨0, 1⟩ ⟨1, 2⟩,
    QColor.fromRgbF ⟨1, 1⟩ ⟨3, 4⟩ ⟨3, 4⟩ ]

/-- The colour `QColor(Qt::white)`. -/
def qtWhite : QColor := QColor.ofRgb 255 255 255

/-- The loops of `initColors` that fill the standard colours of the colour dialog: the
entries `i = lo, ..., hi - 1` of the table go to positions `pos, pos + 1, ...`. -/
def standardColorEvents (cols : List QColor) (pos lo hi : Nat) : List Event :=
  (List.range (hi - lo)).map (fun j =>
    Event.setStandardColor (pos + j) (cols.getD (lo + j) QColor.invalid))

/-- The method `Tikzit::initColors`: the names and the colours are appended to the two
sequences, then the colour dialog is filled. -/
def Tikzit.initColors (t : Tikzit) : Tikzit :=
  let cols := t._cols ++ fixedCols
  { t with
    _colNames := t._colNames ++ fixedColNames
    _cols := cols
    log := t.log ++ (List.range 48).map (fun i => Event.setStandardColor i qtWhite)
      ++ standardColorEvents cols 0 0 5
      ++ standardColorEvents cols 6 5 11
      ++ standardColorEvents cols 12 11 16
      ++ standardColorEvents cols 18 16 19 }

/-- The method `Tikzit::colorByIndex`; an index outside the table has no defined result. -/
def Tikzit.colorByIndex (t : Tikzit) (i : Nat) : Option QColor := t._cols.get? i

/-- The first loop of `colorByName` and of `nameForColor`: walk the two sequences in step
and return the entry of `vals` at the first index where `keys` holds `key`. -/
def lookupParallel {α β : Type} [DecidableEq α] : List α → List β → α → Option β
  | k :: ks, v :: vs, key => if k = key then some v else lookupParallel ks vs key
  | _, _, _ => none

/-- The method `Tikzit::colorByName`: the table first, then the `rgb,255:` literal, then
the invalid colour. -/
def Tikzit.colorByName (t : Tikzit) (name : QString) : QColor :=
  match lookupParallel t._colNames t._cols name with
  | some c => c
  | none =>
    let m := Re.doMatch colorRe name
    if hasMatch m then
      QColor.ofRgb (QString_toInt (captured m 1)) (QString_toInt (captured m 2))
        (QString_toInt (captured m 3))
    else QColor.invalid

/-- The method `Tikzit::nameForColor`: the table first, then the generated literal
`rgb,255: red,R; green,G; blue,B`. -/
def Tikzit.nameForColor (t : Tikzit) (col : QColor) : QString :=
  match lookupParallel t._cols t._colNames col with
  | some n => n
  | none =>
    "rgb,255: red,".toList ++ QString_number col.red8 ++
    "; green,".toList ++ QString_number col.green8 ++
    "; blue,".toList ++ QString_number col.blue8

/-! ## Windows -/

/-- What `open` reads from the document of a window: `isClean()`, `shortName()` and
`fileName()` of `tikzDocument()`.  Documents live in the windows, outside `Tikzit`; each
operation receives their current readings. -/
structure TikzDocument where
  isClean : Bool
  shortName : QString
  fileName : QString
deriving DecidableEq, Repr

/-- The method `Tikzit::newDoc`; `w` is the address returned by `new MainWindow()`. -/
def Tikzit.newDoc (t : Tikzit) (w : WinPtr) : Tikzit :=
  { t with
    _windows := t._windows ++ [w]
    log := t.log ++ [Event.windowShow w, Event.windowRestorePosition w] }

/-- The method `Tikzit::setActiveWindow`. -/
def Tikzit.setActiveWindow (t : Tikzit) (activeWindow : Option WinPtr) : Tikzit :=
  { t with _activeWindow := activeWindow }

/-- The call `_windows.removeAll(w)`: every occurrence of `w` is removed; the list holds no
null pointer, so `nullptr` removes nothing. -/
def removeAll (ws : List WinPtr) (w : Option WinPtr) : List WinPtr :=
  match w with
  | none => ws
  | some a => ws.filter (fun x => x ≠ a)

/-- The method `Tikzit::removeWindow`. -/
def Tikzit.removeWindow (t : Tikzit) (w : Option WinPtr) : Tikzit :=
  let ws := removeAll t._windows w
  if t._activeWindow = w then
    match ws with
    | [] => { t with _windows := ws, _activeWindow := none, log := t.log ++ [Event.quit] }
    | w0 :: _ => { t with _windows := ws, _activeWindow := some w0 }
  else { t with _windows := ws }

/-- The second branch of `open(fileName)`: raise every window that shows the file, and
create a window when there is none. -/
def Tikzit.openSearch (t : Tikzit) (docOf : WinPtr → TikzDocument) (newWin : WinPtr)
    (fileName : QString) : Tikzit :=
  let hits := t._windows.filter (fun w => (docOf w).fileName = fileName)
  let raised := hits.flatMap (fun w => [Event.windowRaise w, Event.windowActivate w])
  if hits = [] then
    { t with
      _windows := t._windows ++ [newWin]
      log := t.log ++ raised ++ [Event.windowShow newWin, Event.windowRestorePosition newWin,
        Event.windowOpen newWin fileName] }
  else { t with log := t.log ++ raised }

/-- The method `Tikzit::open(QString fileName)`; `newWin` is the address that
`new MainWindow()` returns if it is called. -/
def Tikzit.open (t : Tikzit) (docOf : WinPtr → TikzDocument) (newWin : WinPtr)
    (fileName : QString) : Tikzit :=
  if fileName ≠ [] then
    match t._windows with
    | [w0] =>
      if (docOf w0).isClean ∧ (docOf w0).shortName = [] then
        { t with log := t.log ++ [Event.windowOpen w0 fileName, Event.windowShow w0] }
      else t.openSearch docOf newWin fileName
    | _ => t.openSearch docOf newWin fileName
  else t

/-! ## Style files -/

/-- What `loadStyles` asks of the file system and of the style parser: `QFileInfo::exists`,
the result of `TikzStyles::loadStyles` on a fresh repository, `QFileInfo::fileName` and
`QFileInfo::absoluteFilePath`. -/
structure FileSys where
  fileExists : QString → Bool
  stylesLoad : QString → Bool
  baseName : QString → QString
  absoluteFilePath : QString → QString

/-- The warning box for a style file that does not parse. -/
def badStyleFileBox (fileName : QString) : Dialog :=
  { kind := BoxKind.warning
    title := "Bad style file.".toList
    text := "Bad style file: \x27".toList ++ fileName ++
      "\x27. Check the file is properly formatted and try to load it again.".toList }

/-- The warning box for a missing style file. -/
def styleFileNotFoundBox (fileName : QString) : Dialog :=
  { kind := BoxKind.warning
    title := "Style file not found.".toList
    text := "Could not open style file: \x27".toList ++ fileName ++ "\x27.".toList }

/-- The method `Tikzit::loadStyles`; `st` is the address returned by `new TikzStyles(this)`.
The result is the returned flag and the new state. -/
def Tikzit.loadStyles (t : Tikzit) (fs : FileSys) (st : StylesPtr) (fileName : QString) :
    Bool × Tikzit :=
  if fs.fileExists fileName then
    if fs.stylesLoad fileName then
      (true,
       { t with
         _styleFile := fs.baseName fileName
         _styleFilePath := fs.absoluteFilePath fileName
         _styles := some st
         log := t.log ++ [Event.stylesDeleteLater t._styles] ++
           t._windows.map Event.reloadStyles })
    else (false, { t with log := t.log ++ [Event.messageBox (badStyleFileBox fileName)] })
  else (false, { t with log := t.log ++ [Event.messageBox (styleFileNotFoundBox fileName)] })

/-- The method `Tikzit::setCheckForUpdates`. -/
def Tikzit.setCheckForUpdates (t : Tikzit) (check : Bool) : Tikzit :=
  { t with log := t.log ++ [Event.settingsSetCheckForUpdates check] ++
      t._windows.map (fun w => Event.setUpdatesChecked w check) }

/-- The method `Tikzit::checkForUpdates`: the request is sent, the reply arrives later
through `updateAuto` or `updateManual`. -/
def Tikzit.checkForUpdates (t : Tikzit) (manual : Bool) : Tikzit :=
  { t with log := t.log ++ [Event.networkGet manual] }

/-- What `init` reads from its surroundings: the addresses returned by its `new` calls, the
file system, the stored settings and the answer to the question box. -/
structure InitEnv where
  newStyles : StylesPtr
  newWindow : WinPtr
  loadedStyles : StylesPtr
  fs : FileSys
  previousTikzstylesFile : QString
  checkForUpdates : Option Bool
  answerYes : Bool

/-- The question box of `init`. -/
def checkForUpdatesBox : Dialog :=
  { kind := BoxKind.question
    title := "Check for updates".toList
    text := ("Would you like TikZiT to check for updates automatically?" ++
      " (You can always change this later in the Help menu.)").toList }

/-- The method `Tikzit::init`. -/
def Tikzit.init (t : Tikzit) (env : InitEnv) : Tikzit :=
  let t1 := t.initColors
  let ws := t1._windows ++ [env.newWindow]
  let w0 := ws.headD env.newWindow
  let t2 : Tikzit :=
    { t1 with
      _styles := some env.newStyles
      _windows := ws
      _styleFile := []
      _styleFilePath := []
      log := t1.log ++ [Event.windowShow w0, Event.windowRestorePosition w0] }
  let t3 := if env.previousTikzstylesFile ≠ [] then
      (t2.loadStyles env.fs env.loadedStyles env.previousTikzstylesFile).2 else t2
  let t4 : Tikzit := match env.checkForUpdates with
    | none => { t3 with log := t3.log ++ [Event.messageBox checkForUpdatesBox] }
    | some _ => t3
  let check := match env.checkForUpdates with
    | none => env.answerYes
    | some b => b
  let t5 := t4.setCheckForUpdates check
  let t6 := if check then t5.checkForUpdates false else t5
  { t6 with _latex := none }

/-- The invariant of the window list: the active window is null or in the list. -/
def activeInWindows (t : Tikzit) : Prop :=
  ∀ w, t._activeWindow = some w → w ∈ t._windows

/-! ## Further style, update and preview operations -/

/-- The warning box of `newTikzStyles` for a file that cannot be written. -/
def couldNotWriteBox (fileName : QString) : Dialog :=
  { kind := BoxKind.warning
    title := "Could not write to style file.".toList
    text := "Could not write to: \x27".toList ++ fileName ++
      "\x27. Check file permissions or choose a new location.".toList }

/-- The method `Tikzit::newTikzStyles`.  `selected` is the first file chosen in the dialog
(`none` when the dialog is cancelled or nothing is selected), `st` the address returned by
`new TikzStyles(this)`, `saveStyles` the result of `st->saveStyles`, `absolutePath` the
function `QFileInfo::absolutePath`. -/
def Tikzit.newTikzStyles (t : Tikzit) (fs : FileSys) (absolutePath : QString → QString)
    (saveStyles : QString → Bool) (selected : Option QString) (st : StylesPtr) : Tikzit :=
  match selected with
  | none => t
  | some fileName =>
    if saveStyles fileName then
      { t with
        _styleFile := fs.baseName fileName
        _styleFilePath := fs.absoluteFilePath fileName
        _styles := some st
        log := t.log ++
          [Event.settingsSetValue "previous-tikzstyles-file".toList fileName,
           Event.settingsSetValue "previous-tikzstyles-path".toList (absolutePath fileName),
           Event.stylesDeleteLater t._styles] ++
          t._windows.map Event.reloadStyles }
    else { t with log := t.log ++ [Event.messageBox (couldNotWriteBox fileName)] }

/-- The method `Tikzit::openTikzStyles`; `selected` is the file name returned by the dialog,
empty when it is cancelled. -/
def Tikzit.openTikzStyles (t : Tikzit) (fs : FileSys) (absolutePath : QString → QString)
    (selected : QString) (st : StylesPtr) : Tikzit :=
  if selected ≠ [] then
    if fs.fileExists selected then
      if (t.loadStyles fs st selected).1 then
        { (t.loadStyles fs st selected).2 with
          log := (t.loadStyles fs st selected).2.log ++
            [Event.settingsSetValue "previous-tikzstyles-path".toList (absolutePath selected),
             Event.settingsSetValue "previous-tikzstyles-file".toList selected] }
      else (t.loadStyles fs st selected).2
    else t
  else t

/-- The slot `Tikzit::updateAuto`: the boxes of `updateReply(reply, false)` are shown. -/
def Tikzit.updateAuto (t : Tikzit) (TIKZIT_VERSION : QString) (reply : QNetworkReply) :
    Tikzit :=
  { t with log := t.log ++ (updateReply TIKZIT_VERSION reply false).map Event.messageBox }

/-- The slot `Tikzit::updateManual`: the boxes of `updateReply(reply, true)` are shown. -/
def Tikzit.updateManual (t : Tikzit) (TIKZIT_VERSION : QString) (reply : QNetworkReply) :
    Tikzit :=
  { t with log := t.log ++ (updateReply TIKZIT_VERSION reply true).map Event.messageBox }

/-- The picture that `makePreview` renders for an empty document. -/
def emptyPreviewSource : QString :=
  ("\\begin\x7btikzpicture\x7d\n" ++
   "  \\node [style=none] (0) at (0,0) \x7b\x7d;\n" ++
   "\\end\x7btikzpicture\x7d\n").toList

/-- The method `Tikzit::makePreview`.  `newProc` is the address returned by
`new LatexProcess(_preview, this)`; `isEmptyOf w` and `sourceOf w` are the readings
`w->tikzDocument()->isEmpty()` and `w->tikzSource()`. -/
def Tikzit.makePreview (t : Tikzit) (newProc : ProcPtr) (isEmptyOf : WinPtr → Bool)
    (sourceOf : WinPtr → QString) : Tikzit :=
  match t._activeWindow with
  | none => t
  | some w =>
    { t with
      _latex := some newProc
      log := t.log ++
        (match t._latex with
         | none => []
         | some oldProc => [Event.procKill oldProc, Event.procDeleteLater oldProc]) ++
        [Event.connectPreviewFinished newProc,
         Event.procMakePreview newProc
           (if isEmptyOf w then emptyPreviewSource else sourceOf w),
         Event.previewShow, Event.previewRestorePosition, Event.previewRaise,
         Event.previewActivate] }

/-- The slot `Tikzit::cleanupLatex`. -/
def Tikzit.cleanupLatex (t : Tikzit) : Tikzit :=
  match t._latex with
  | none => { t with _latex := none }
  | some oldProc => { t with _latex := none, log := t.log ++ [Event.procDeleteLater oldProc] }

/-- The calls made between the state `before` and the later state `after`. -/
def newEvents (before after : Tikzit) : List Event := after.log.drop before.log.length

/-- The condition of the first branch of `open`: the only window holds a clean document
without a name. -/
def onlyWindowFresh (t : Tikzit) (docOf : WinPtr → TikzDocument) : Prop :=
  ∃ w0, t._windows = [w0] ∧ (docOf w0).isClean = true ∧ (docOf w0).shortName = []

/-- Some window of the list shows the file `fileName`. -/
def alreadyOpen (t : Tikzit) (docOf : WinPtr → TikzDocument) (fileName : QString) : Prop :=
  ∃ w ∈ t._windows, (docOf w).fileName = fileName

/-! ## Specification-side notions -/

/-- Dot-separated text of a list of segments. -/
def joinDots : List (List Char) → List Char
  | [] => []
  | [s] => s
  | s :: t => s ++ '.' :: joinDots t

/-- The text `.s1.s2...` of the segments that follow the first one. -/
def dotTail : List (List Char) → List Char
  | [] => []
  | s :: t => '.' :: (s ++ dotTail t)

/-- The text `MAJOR.MINOR.PATCH`, followed by `-rc` and a number when `rc` is given. -/
def semverText (major minor patch : List Char) (rc : Option (List Char)) : List Char :=
  major ++ (dotTail [minor, patch] ++
    (match rc with
     | none => []
     | some K => '-' :: 'r' :: 'c' :: K))

/-- The numeric components that an `int`-based reader takes from a list of digit strings:
the values of the segments in front of the first one that exceeds `INT_MAX`. -/
def parsedSegs (segs : List (List Char)) : List Int :=
  (segs.takeWhile (fun s => decide (decVal s ≤ INT_MAX))).map (fun s => (decVal s : Int))

/-- A non-empty string of decimal digits. -/
def IsDigits (ds : List Char) : Prop := ds ≠ [] ∧ ∀ c ∈ ds, isDigit09 c = true

instance (ds : List Char) : Decidable (IsDigits ds) := by
  unfold IsDigits
  infer_instance

/-- Whether some component is positive. -/
def anyPositive : List Nat → Bool
  | [] => false
  | b :: bs => if 0 < b then true else anyPositive bs

/-- The order on versions in the words of the specification: components are compared from
the left, a missing trailing component counts as zero; `versionLt cur lat` says that `lat`
is greater than `cur`.  When `cur` is exhausted, `lat` is greater exactly if one of its
remaining components is positive; when `lat` is exhausted it cannot be greater. -/
def versionLt : List Nat → List Nat → Bool
  | [], lat => anyPositive lat
  | _ :: _, [] => false
  | a :: as, b :: bs => if a < b then true else if b < a then false else versionLt as bs

/-- The colour literal `rgb,255:red,R;green,G;blue,B` with the text `gap i` put at the
fifteen places where the pattern admits white space: on both sides of each of the seven
separators (`gap 0` to `gap 13`) and at the end (`gap 14`). -/
def rgbLiteral (gap : Nat → List Char) (R G B : List Char) : List Char :=
  ['r', 'g', 'b'] ++ (gap 0 ++ (',' :: (gap 1 ++ (['2', '5', '5'] ++ (gap 2 ++ (':' :: (
  gap 3 ++ (['r', 'e', 'd'] ++ (gap 4 ++ (',' :: (gap 5 ++ (R ++ (gap 6 ++ (';' :: (gap 7 ++ (
  ['g', 'r', 'e', 'e', 'n'] ++ (gap 8 ++ (',' :: (gap 9 ++ (G ++ (gap 10 ++ (';' :: (
  gap 11 ++ (['b', 'l', 'u', 'e'] ++ (gap 12 ++ (',' :: (gap 13 ++ (
  B ++ gap 14))))))))))))))))))))))))))))

/-- The gaps of the literal that `nameForColor` generates: one space after the colon and
after each semicolon. -/
def generatedGap (i : Nat) : List Char := if i = 3 ∨ i = 7 ∨ i = 11 then [' '] else []

/-- The text does not begin with a character of the class `p`. -/
def StartsNot (p : Char → Bool) (rest : List Char) : Prop :=
  ∀ c t, rest = c :: t → p c = false

/-- State of a match attempt on a text without `-`: no `-` ahead and group 3 not set. -/
def GoodSt (s : MState) : Prop := '-' ∉ s.rest ∧ s.caps.lookup 3 = none

/-- The expression `r` hands only states without `-` ahead and without group 3 to its
continuation, when started in such a state. -/
def Pres (r : Re) : Prop :=
  ∀ (s : MState) (k : MState → Option MState) (res : MState),
    GoodSt s → Re.run r s k = some res → ∃ s1, GoodSt s1 ∧ k s1 = some res

/-- A file system in which every style file exists and parses. -/
def allFiles : FileSys :=
  { fileExists := fun _ => true, stylesLoad := fun _ => true,
    baseName := fun f => f, absoluteFilePath := fun f => '/' :: f }

/-- A file system without any file. -/
def noFiles : FileSys :=
  { fileExists := fun _ => false, stylesLoad := fun _ => false,
    baseName := fun f => f, absoluteFilePath := fun f => f }

/-! ## Lemmas and claims -/

theorem startsNot_nil (p : Char → Bool) : StartsNot p [] := by
  intro c t h; cases h

theorem startsNot_cons {p : Char → Bool} {c : Char} (t : List Char) (h : p c = false) :
    StartsNot p (c :: t) := by
  intro d u e
  cases e
  exact h

theorem startsNot_append {p : Char → Bool} {w rest : List Char}
    (hw : ∀ c ∈ w, p c = false) (hr : StartsNot p rest) : StartsNot p (w ++ rest) := by
  cases w with
  | nil => simpa using hr
  | cons a w => exact startsNot_cons _ (hw a (by simp))

theorem space_not_digit {c : Char} (h : isReSpace c = true) : isDigit09 c = false := by
  simp only [isReSpace, isDigit09, Bool.or_eq_true, Bool.and_eq_true, decide_eq_true_eq,
    Bool.and_eq_false_imp] at *
  intro _
  simp only [decide_eq_false_iff_not]
  omega

theorem digit_not_space {c : Char} (h : isDigit09 c = true) : isReSpace c = false := by
  cases hs : isReSpace c with
  | false => rfl
  | true => rw [space_not_digit hs] at h; cases h

theorem digit_not_qspace {c : Char} (h : isDigit09 c = true) : QChar_isSpace c = false := by
  simp only [isDigit09, Bool.and_eq_true, decide_eq_true_eq] at h
  simp only [QChar_isSpace, Bool.or_eq_false_iff, Bool.and_eq_false_imp, decide_eq_false_iff_not,
    decide_eq_true_eq]
  omega

theorem digit_not_asciispace {c : Char} (h : isDigit09 c = true) : ascii_isspace c = false := by
  simp only [isDigit09, Bool.and_eq_true, decide_eq_true_eq] at h
  simp only [ascii_isspace, Bool.or_eq_false_iff, Bool.and_eq_false_imp, decide_eq_false_iff_not,
    decide_eq_true_eq]
  omega

theorem digit19_is_digit {c : Char} (h : isDigit19 c = true) : isDigit09 c = true := by
  simp only [isDigit19, isDigit09, Bool.and_eq_true, decide_eq_true_eq] at *
  omega

theorem decVal_append_single (ds : List Char) (c : Char) :
    decVal (ds ++ [c]) = 10 * decVal ds + digitVal c := by
  simp [decVal, List.foldl_append]

theorem digitChar_isDigit (d : Nat) : isDigit09 (digitChar d) = true := by
  unfold digitChar
  split <;> decide

theorem digitVal_digitChar (d : Nat) (h : d < 10) : digitVal (digitChar d) = d := by
  interval_cases d <;> decide

theorem digitsFuel_spec : ∀ (fuel n : Nat), n < fuel →
    IsDigits (digitsFuel fuel n) ∧ decVal (digitsFuel fuel n) = n := by
  intro fuel
  induction fuel with
  | zero => intro n h; omega
  | succ f ih =>
    intro n h
    unfold digitsFuel
    by_cases h10 : n < 10
    · simp only [h10, if_true]
      refine ⟨⟨by simp, ?_⟩, ?_⟩
      · intro c hc
        simp only [List.mem_singleton] at hc
        rw [hc]; exact digitChar_isDigit n
      · simp [decVal, digitVal_digitChar n h10]
    · simp only [h10, if_false]
      have hlt : n / 10 < f := by omega
      obtain ⟨⟨_, hd⟩, hv⟩ := ih (n / 10) hlt
      refine ⟨⟨by simp, ?_⟩, ?_⟩
      · intro c hc
        rcases List.mem_append.mp hc with h1 | h1
        · exact hd c h1
        · simp only [List.mem_singleton] at h1
          rw [h1]; exact digitChar_isDigit _
      · rw [decVal_append_single, hv, digitVal_digitChar _ (Nat.mod_lt _ (by norm_num))]
        omega

theorem natStr_isDigits (n : Nat) : IsDigits (natStr n) :=
  (digitsFuel_spec (n + 1) n (Nat.lt_succ_self n)).1

theorem decVal_natStr (n : Nat) : decVal (natStr n) = n :=
  (digitsFuel_spec (n + 1) n (Nat.lt_succ_self n)).2

theorem dropWhileB_startsNot {p : Char → Bool} {l : List Char} (h : StartsNot p l) :
    dropWhileB p l = l := by
  cases l with
  | nil => rfl
  | cons c t => simp [dropWhileB, h c t rfl]

theorem dropWhileB_append {p : Char → Bool} (w rest : List Char)
    (hw : ∀ c ∈ w, p c = true) (hr : StartsNot p rest) : dropWhileB p (w ++ rest) = rest := by
  induction w with
  | nil => simpa using dropWhileB_startsNot hr
  | cons a w ih =>
    simp only [List.cons_append, dropWhileB, hw a (by simp), if_true]
    exact ih (fun c hc => hw c (by simp [hc]))

theorem takeWhileB_append {p : Char → Bool} (w rest : List Char)
    (hw : ∀ c ∈ w, p c = true) (hr : StartsNot p rest) : takeWhileB p (w ++ rest) = w := by
  induction w with
  | nil =>
    cases rest with
    | nil => rfl
    | cons c t => simp [takeWhileB, hr c t rfl]
  | cons a w ih =>
    have e := ih (fun c hc => hw c (by simp [hc]))
    simp only [List.cons_append, takeWhileB, hw a (by simp), if_true]
    exact congrArg (List.cons a) e

theorem isDigits_head {ds : List Char} (h : IsDigits ds) :
    ∃ c t, ds = c :: t ∧ isDigit09 c = true := by
  obtain ⟨hne, hd⟩ := h
  cases ds with
  | nil => exact absurd rfl hne
  | cons c t => exact ⟨c, t, rfl, hd c (by simp)⟩

theorem isDigits_startsNot {p : Char → Bool} {ds : List Char} (rest : List Char)
    (h : IsDigits ds) (hp : ∀ c, isDigit09 c = true → p c = false) :
    StartsNot p (ds ++ rest) := by
  obtain ⟨c, t, rfl, hc⟩ := isDigits_head h
  exact startsNot_cons _ (hp c hc)

theorem isDigits_reverse {ds : List Char} (h : IsDigits ds) : IsDigits ds.reverse :=
  ⟨by simpa using h.1, fun c hc => h.2 c (by simpa using hc)⟩

theorem toInt_digits {ds : List Char} (h : IsDigits ds) :
    QString_toInt ds = if decVal ds ≤ INT_MAX then (decVal ds : Int) else 0 := by
  have h1 : dropWhileB QChar_isSpace ds = ds := by
    have := isDigits_startsNot (p := QChar_isSpace) [] h (fun c => digit_not_qspace)
    simpa using dropWhileB_startsNot this
  have h2 : dropWhileB QChar_isSpace ds.reverse = ds.reverse := by
    have := isDigits_startsNot (p := QChar_isSpace) [] (isDigits_reverse h)
      (fun c => digit_not_qspace)
    simpa using dropWhileB_startsNot this
  obtain ⟨c, t, rfl, hc⟩ := isDigits_head h
  have hm : c ≠ '-' := by rintro rfl; revert hc; decide
  have hp : c ≠ '+' := by rintro rfl; revert hc; decide
  have hall : (c :: t).all isDigit09 = true := by
    rw [List.all_eq_true]; exact h.2
  unfold QString_toInt
  simp only [h1, h2, List.reverse_reverse, List.head?_cons, Option.some.injEq, hm, hp,
    or_self, if_false, hall]
  simp

theorem run_seq (a b : Re) (s : MState) (k : MState → Option MState) :
    Re.run (Re.seq a b) s k = Re.run a s (fun s1 => Re.run b s1 k) := by
  simp [Re.run]

theorem run_chr (c : Char) (t : List Char) (pos : Nat) (caps : List (Nat × QString))
    (k : MState → Option MState) :
    Re.run (Re.chr c) ⟨pos, c :: t, caps⟩ k = k ⟨pos + 1, t, caps⟩ := by
  simp [Re.run]

theorem run_cls {p : Char → Bool} {c : Char} (h : p c = true) (t : List Char) (pos : Nat)
    (caps : List (Nat × QString)) (k : MState → Option MState) :
    Re.run (Re.cls p) ⟨pos, c :: t, caps⟩ k = k ⟨pos + 1, t, caps⟩ := by
  simp [Re.run, h]

theorem run_cls_fail {p : Char → Bool} {rest : List Char} (h : StartsNot p rest) (pos : Nat)
    (caps : List (Nat × QString)) (k : MState → Option MState) :
    Re.run (Re.cls p) ⟨pos, rest, caps⟩ k = none := by
  cases rest with
  | nil => simp [Re.run]
  | cons c t => simp [Re.run, h c t rfl]

theorem run_lit (cs : List Char) (r : Re) (t : List Char) (pos : Nat)
    (caps : List (Nat × QString)) (k : MState → Option MState) :
    Re.run (Re.lit cs r) ⟨pos, cs ++ t, caps⟩ k = Re.run r ⟨pos + cs.length, t, caps⟩ k := by
  induction cs generalizing pos with
  | nil => rfl
  | cons c cs ih =>
    simp only [Re.lit, List.cons_append, run_seq, run_chr, ih, List.length_cons]
    congr 2
    omega

theorem starLoop_cls {p : Char → Bool} {rest : List Char} (hr : StartsNot p rest)
    (k : MState → Option MState) (caps : List (Nat × QString)) (res : MState) :
    ∀ (ws : List Char) (fuel pos : Nat), (∀ c ∈ ws, p c = true) → ws.length ≤ fuel →
      k ⟨pos + ws.length, rest, caps⟩ = some res →
      starLoop (Re.run (Re.cls p)) fuel ⟨pos, ws ++ rest, caps⟩ k = some res := by
  intro ws
  induction ws with
  | nil =>
    intro fuel pos _ _ hk
    simp only [List.length_nil, Nat.add_zero] at hk
    cases fuel with
    | zero => simpa [starLoop] using hk
    | succ f => simp [starLoop, run_cls_fail hr, hk]
  | cons a w ih =>
    intro fuel pos hws hf hk
    cases fuel with
    | zero => simp at hf
    | succ f =>
      have hk2 : k ⟨pos + 1 + w.length, rest, caps⟩ = some res := by
        rw [← hk]; congr 2; simp; omega
      have e := ih f (pos + 1) (fun c hc => hws c (by simp [hc]))
        (by simpa using hf) hk2
      simp only [starLoop, List.cons_append, run_cls (hws a (by simp))]
      simp [e]

theorem run_star_cls {p : Char → Bool} {ws rest : List Char} (hws : ∀ c ∈ ws, p c = true)
    (hr : StartsNot p rest) (pos : Nat) (caps : List (Nat × QString))
    (k : MState → Option MState) (res : MState)
    (hk : k ⟨pos + ws.length, rest, caps⟩ = some res) :
    Re.run (Re.star (Re.cls p)) ⟨pos, ws ++ rest, caps⟩ k = some res := by
  simp only [Re.run]
  exact starLoop_cls hr k caps res ws _ pos hws (by simp) hk

theorem run_plus_cls {p : Char → Bool} {ds rest : List Char} (hne : ds ≠ [])
    (hds : ∀ c ∈ ds, p c = true) (hr : StartsNot p rest) (pos : Nat)
    (caps : List (Nat × QString)) (k : MState → Option MState) (res : MState)
    (hk : k ⟨pos + ds.length, rest, caps⟩ = some res) :
    Re.run (Re.plus (Re.cls p)) ⟨pos, ds ++ rest, caps⟩ k = some res := by
  cases ds with
  | nil => exact absurd rfl hne
  | cons d ds =>
    simp only [Re.plus, run_seq, List.cons_append, run_cls (hds d (by simp))]
    apply run_star_cls (fun c hc => hds c (by simp [hc])) hr
    rw [← hk]; congr 2; simp; omega

theorem take_append_sub (a b : List Char) : (a ++ b).take ((a ++ b).length - b.length) = a := by
  simp

theorem run_reNum {ds rest : List Char} (n : Nat) (hd : IsDigits ds)
    (hr : StartsNot isDigit09 rest) (pos : Nat) (caps : List (Nat × QString))
    (k : MState → Option MState) (res : MState)
    (hk : k ⟨pos + ds.length, rest, (n, ds) :: caps⟩ = some res) :
    Re.run (reNum n) ⟨pos, ds ++ rest, caps⟩ k = some res := by
  simp only [reNum, Re.run]
  have := run_plus_cls hd.1 hd.2 hr pos caps
    (fun s1 => k ⟨s1.pos, s1.rest,
      (n, (ds ++ rest).take ((ds ++ rest).length - s1.rest.length)) :: s1.caps⟩) res
    (by simpa using hk)
  simpa [Re.plus, Re.run] using this

theorem run_reWs {ws rest : List Char} (hws : ∀ c ∈ ws, isReSpace c = true)
    (hr : StartsNot isReSpace rest) (pos : Nat) (caps : List (Nat × QString))
    (k : MState → Option MState) (res : MState)
    (hk : k ⟨pos + ws.length, rest, caps⟩ = some res) :
    Re.run reWs ⟨pos, ws ++ rest, caps⟩ k = some res :=
  run_star_cls hws hr pos caps k res hk

theorem startsNot_of_all {p : Char → Bool} {w : List Char} (hw : ∀ c ∈ w, p c = false) :
    StartsNot p w := by
  simpa using startsNot_append hw (startsNot_nil p)

theorem run_reWs_end {ws : List Char} (hws : ∀ c ∈ ws, isReSpace c = true) (pos : Nat)
    (caps : List (Nat × QString)) (k : MState → Option MState) (res : MState)
    (hk : k ⟨pos + ws.length, [], caps⟩ = some res) :
    Re.run reWs ⟨pos, ws, caps⟩ k = some res := by
  simpa using run_reWs hws (startsNot_nil isReSpace) pos caps k res hk

theorem doMatch_of_run {re : Re} {l : List Char} {res : MState}
    (h : Re.run re ⟨0, l, []⟩ some = some res) : Re.doMatch re l = some res := by
  cases l with
  | nil => simpa [Re.doMatch, Re.search] using h
  | cons c t => simp [Re.doMatch, Re.search, h]

theorem run_bol (t : List Char) (caps : List (Nat × QString)) (k : MState → Option MState) :
    Re.run Re.bol ⟨0, t, caps⟩ k = k ⟨0, t, caps⟩ := by
  simp [Re.run]

theorem run_eol (pos : Nat) (caps : List (Nat × QString)) (k : MState → Option MState) :
    Re.run Re.eol ⟨pos, [], caps⟩ k = k ⟨pos, [], caps⟩ := by
  simp [Re.run]

theorem colorRe_match (gap : Nat → List Char) (R G B : List Char)
    (hg : ∀ i c, c ∈ gap i → isReSpace c = true)
    (hR : IsDigits R) (hG : IsDigits G) (hB : IsDigits B) :
    ∃ pos, Re.doMatch colorRe (rgbLiteral gap R G B) = some ⟨pos, [], [(3, B), (2, G), (1, R)]⟩ := by
  refine ⟨?_, ?_⟩
  swap
  apply doMatch_of_run
  have sp : ∀ (c : Char) (t : List Char), isReSpace c = false → StartsNot isReSpace (c :: t) :=
    fun c t h => startsNot_cons t h
  have dg : ∀ (i : Nat) (c : Char) (t : List Char), isDigit09 c = false →
      StartsNot isDigit09 (gap i ++ c :: t) :=
    fun i c t h => startsNot_append (fun d hd => space_not_digit (hg i d hd)) (startsNot_cons t h)
  have sd : ∀ {ds : List Char} (rest : List Char), IsDigits ds →
      StartsNot isReSpace (ds ++ rest) :=
    fun rest h => isDigits_startsNot rest h (fun c => digit_not_space)
  unfold colorRe rgbLiteral
  try simp only [run_seq, run_bol, run_chr, run_lit]
  refine run_reWs (hg 0) ?_ _ _ _ _ ?_
  · exact sp _ _ (by decide)
  try simp only [run_seq, run_bol, run_chr, run_lit]
  refine run_reWs (hg 1) ?_ _ _ _ _ ?_
  · exact sp _ _ (by decide)
  try simp only [run_seq, run_bol, run_chr, run_lit]
  refine run_reWs (hg 2) ?_ _ _ _ _ ?_
  · exact sp _ _ (by decide)
  try simp only [run_seq, run_bol, run_chr, run_lit]
  refine run_reWs (hg 3) ?_ _ _ _ _ ?_
  · exact sp _ _ (by decide)
  try simp only [run_seq, run_bol, run_chr, run_lit]
  refine run_reWs (hg 4) ?_ _ _ _ _ ?_
  · exact sp _ _ (by decide)
  try simp only [run_seq, run_bol, run_chr, run_lit]
  refine run_reWs (hg 5) ?_ _ _ _ _ ?_
  · exact sd _ hR
  try simp only [run_seq, run_bol, run_chr, run_lit]
  refine run_reNum 1 hR ?_ _ _ _ _ ?_
  · exact dg 6 _ _ (by decide)
  try simp only [run_seq, run_bol, run_chr, run_lit]
  refine run_reWs (hg 6) ?_ _ _ _ _ ?_
  · exact sp _ _ (by decide)
  try simp only [run_seq, run_bol, run_chr, run_lit]
  refine run_reWs (hg 7) ?_ _ _ _ _ ?_
  · exact sp _ _ (by decide)
  try simp only [run_seq, run_bol, run_chr, run_lit]
  refine run_reWs (hg 8) ?_ _ _ _ _ ?_
  · exact sp _ _ (by decide)
  try simp only [run_seq, run_bol, run_chr, run_lit]
  refine run_reWs (hg 9) ?_ _ _ _ _ ?_
  · exact sd _ hG
  try simp only [run_seq, run_bol, run_chr, run_lit]
  refine run_reNum 2 hG ?_ _ _ _ _ ?_
  · exact dg 10 _ _ (by decide)
  try simp only [run_seq, run_bol, run_chr, run_lit]
  refine run_reWs (hg 10) ?_ _ _ _ _ ?_
  · exact sp _ _ (by decide)
  try simp only [run_seq, run_bol, run_chr, run_lit]
  refine run_reWs (hg 11) ?_ _ _ _ _ ?_
  · exact sp _ _ (by decide)
  try simp only [run_seq, run_bol, run_chr, run_lit]
  refine run_reWs (hg 12) ?_ _ _ _ _ ?_
  · exact sp _ _ (by decide)
  try simp only [run_seq, run_bol, run_chr, run_lit]
  refine run_reWs (hg 13) ?_ _ _ _ _ ?_
  · exact sd _ hB
  try simp only [run_seq, run_bol, run_chr, run_lit]
  refine run_reNum 3 hB ?_ _ _ _ _ ?_
  · exact startsNot_of_all (fun d hd => space_not_digit (hg 14 d hd))
  try simp only [run_seq, run_bol, run_chr, run_lit]
  refine run_reWs_end (hg 14) _ _ _ _ ?_
  simp only [run_eol]
  exact rfl

theorem lookupParallel_mem {α β : Type} [DecidableEq α] :
    ∀ (ks : List α) (vs : List β) (k : α) (v : β),
      lookupParallel ks vs k = some v → v ∈ vs ∧ k ∈ ks := by
  intro ks
  induction ks with
  | nil => intro vs k v h; cases vs <;> simp [lookupParallel] at h
  | cons k0 ks ih =>
    intro vs k v h
    cases vs with
    | nil => simp [lookupParallel] at h
    | cons v0 vs =>
      simp only [lookupParallel] at h
      by_cases e : k0 = k
      · simp only [e, if_true, Option.some.injEq] at h
        simp [h, e]
      · simp only [e, if_false] at h
        have := ih vs k v h
        simp [this.1, this.2]

theorem lookupParallel_inverse {α β : Type} [DecidableEq α] [DecidableEq β] :
    ∀ (ks : List α) (vs : List β) (k : α) (v : β), vs.Nodup →
      lookupParallel ks vs k = some v → lookupParallel vs ks v = some k := by
  intro ks
  induction ks with
  | nil => intro vs k v _ h; cases vs <;> simp [lookupParallel] at h
  | cons k0 ks ih =>
    intro vs k v hnd h
    cases vs with
    | nil => simp [lookupParallel] at h
    | cons v0 vs =>
      simp only [lookupParallel] at h
      rw [List.nodup_cons] at hnd
      by_cases e : k0 = k
      · simp only [e, if_true, Option.some.injEq] at h
        simp [lookupParallel, h, e]
      · simp only [e, if_false] at h
        have hv : v ∈ vs := (lookupParallel_mem ks vs k v h).1
        have hne : v0 ≠ v := by
          rintro rfl
          exact hnd.1 hv
        simp only [lookupParallel, hne, if_false]
        exact ih vs k v hnd.2 h

theorem lookupParallel_of_mem {α β : Type} [DecidableEq α] :
    ∀ (ks : List α) (vs : List β) (k : α), k ∈ ks → ks.length ≤ vs.length →
      ∃ v, lookupParallel ks vs k = some v := by
  intro ks
  induction ks with
  | nil => intro vs k h; simp at h
  | cons k0 ks ih =>
    intro vs k hk hl
    cases vs with
    | nil => simp at hl
    | cons v0 vs =>
      by_cases e : k0 = k
      · exact ⟨v0, by simp [lookupParallel, e]⟩
      · have hk2 : k ∈ ks := by
          rcases List.mem_cons.mp hk with h | h
          · exact absurd h.symm e
          · exact h
        obtain ⟨v, hv⟩ := ih vs k hk2 (by simpa using hl)
        exact ⟨v, by simp [lookupParallel, e, hv]⟩

theorem lookupParallel_not_mem {α β : Type} [DecidableEq α] :
    ∀ (ks : List α) (vs : List β) (k : α), k ∉ ks → lookupParallel ks vs k = none := by
  intro ks vs k h
  cases e : lookupParallel ks vs k with
  | none => rfl
  | some v => exact absurd (lookupParallel_mem ks vs k v e).2 h

theorem fixedColNames_nodup : fixedColNames.Nodup := by decide

theorem fixedCols_nodup : fixedCols.Nodup := by decide

theorem fixedColNames_no_comma : ∀ n ∈ fixedColNames, ',' ∉ n := by decide

theorem rgbLiteral_not_fixed (gap : Nat → List Char) (R G B : List Char) :
    rgbLiteral gap R G B ∉ fixedColNames := by
  intro h
  exact fixedColNames_no_comma _ h (by simp [rgbLiteral])

theorem ofRgb_nat (r g b : Nat) (hr : r ≤ 255) (hg : g ≤ 255) (hb : b ≤ 255) :
    QColor.ofRgb r g b = ⟨Spec.Rgb, 65535, r * 257, g * 257, b * 257, 0⟩ := by
  have h : ¬ ((r : Int) < 0 ∨ 255 < (r : Int) ∨ (g : Int) < 0 ∨ 255 < (g : Int) ∨
      (b : Int) < 0 ∨ 255 < (b : Int)) := by omega
  unfold QColor.ofRgb
  rw [if_neg h]
  simp

/-- The colour returned by `colorByName` for a literal, whatever the white space. -/
theorem colorByName_literal (t : Tikzit) (hn : t._colNames = fixedColNames)
    (gap : Nat → List Char) (R G B : List Char)
    (hg : ∀ i c, c ∈ gap i → isReSpace c = true)
    (hR : IsDigits R) (hG : IsDigits G) (hB : IsDigits B)
    (hr : decVal R ≤ 255) (hgv : decVal G ≤ 255) (hb : decVal B ≤ 255) :
    t.colorByName (rgbLiteral gap R G B) = QColor.ofRgb (decVal R) (decVal G) (decVal B) := by
  obtain ⟨pos, hm⟩ := colorRe_match gap R G B hg hR hG hB
  have hl : lookupParallel t._colNames t._cols (rgbLiteral gap R G B) = none := by
    rw [hn]; exact lookupParallel_not_mem _ _ _ (rgbLiteral_not_fixed gap R G B)
  have i1 : decVal R ≤ INT_MAX := by unfold INT_MAX; omega
  have i2 : decVal G ≤ INT_MAX := by unfold INT_MAX; omega
  have i3 : decVal B ≤ INT_MAX := by unfold INT_MAX; omega
  simp [Tikzit.colorByName, hl, hm, hasMatch, captured, List.lookup, toInt_digits hR,
    toInt_digits hG, toInt_digits hB, i1, i2, i3]

theorem initColors_names (t : Tikzit) (hn : t._colNames = []) :
    t.initColors._colNames = fixedColNames := by
  simp [Tikzit.initColors, hn]

theorem initColors_cols (t : Tikzit) (hc : t._cols = []) :
    t.initColors._cols = fixedCols := by
  simp [Tikzit.initColors, hc]

theorem number_nat (n : Nat) : QString_number (n : Int) = natStr n := by
  have h : ¬ ((n : Int) < 0) := by omega
  simp [QString_number, h]

theorem generated_name (r g b : Nat) :
    "rgb,255: red,".toList ++ natStr r ++ "; green,".toList ++ natStr g ++
      "; blue,".toList ++ natStr b = rgbLiteral generatedGap (natStr r) (natStr g) (natStr b) := by
  have e1 : "rgb,255: red,".toList =
      ['r', 'g', 'b', ',', '2', '5', '5', ':', ' ', 'r', 'e', 'd', ','] := by decide
  have e2 : "; green,".toList = [';', ' ', 'g', 'r', 'e', 'e', 'n', ','] := by decide
  have e3 : "; blue,".toList = [';', ' ', 'b', 'l', 'u', 'e', ','] := by decide
  rw [e1, e2, e3]
  simp [rgbLiteral, generatedGap]

theorem generatedGap_space : ∀ i c, c ∈ generatedGap i → isReSpace c = true := by
  intro i c h
  unfold generatedGap at h
  split at h
  · simp only [List.mem_singleton] at h
    rw [h]; decide
  · simp at h

/-- Round trip through the generated or fixed name, on any table equal to the fixed one. -/
theorem color_roundtrip (t : Tikzit) (hn : t._colNames = fixedColNames) (r g b : Nat) (hr : r ≤ 255) (hg : g ≤ 255) (hb : b ≤ 255) :
    t.colorByName (t.nameForColor (QColor.ofRgb r g b)) = QColor.ofRgb r g b := by
  cases h : lookupParallel t._cols t._colNames (QColor.ofRgb r g b) with
  | some n =>
    have h2 : lookupParallel t._colNames t._cols n = some (QColor.ofRgb r g b) := by
      apply lookupParallel_inverse _ _ _ _ _ h
      rw [hn]; exact fixedColNames_nodup
    simp [Tikzit.nameForColor, Tikzit.colorByName, h, h2]
  | none =>
    have e : t.nameForColor (QColor.ofRgb r g b) =
        rgbLiteral generatedGap (natStr r) (natStr g) (natStr b) := by
      have r8 : (QColor.ofRgb r g b).red8 = (r : Int) := by
        rw [ofRgb_nat r g b hr hg hb]; simp only [QColor.red8]; congr 1; omega
      have g8 : (QColor.ofRgb r g b).green8 = (g : Int) := by
        rw [ofRgb_nat r g b hr hg hb]; simp only [QColor.green8]; congr 1; omega
      have b8 : (QColor.ofRgb r g b).blue8 = (b : Int) := by
        rw [ofRgb_nat r g b hr hg hb]; simp only [QColor.blue8]; congr 1; omega
      simp only [Tikzit.nameForColor, h, r8, g8, b8, number_nat]
      exact generated_name r g b
    rw [e, colorByName_literal t hn generatedGap _ _ _ generatedGap_space (natStr_isDigits r)
      (natStr_isDigits g) (natStr_isDigits b) (by rw [decVal_natStr]; exact hr)
      (by rw [decVal_natStr]; exact hg) (by rw [decVal_natStr]; exact hb)]
    simp only [decVal_natStr]

/-- Claim C1: after `initColors` on a `Tikzit` with an empty colour table, each of the 19
fixed names is returned by `nameForColor` for the colour that `colorByName` gives it; the
19 colours are pairwise different. -/
theorem C1_fixed_name_roundtrip (t : Tikzit) (hn : t._colNames = []) (hc : t._cols = []) :
    fixedColNames.length = 19 ∧
    (∀ n ∈ fixedColNames, t.initColors.nameForColor (t.initColors.colorByName n) = n) ∧
    t.initColors._cols.Nodup := by
  have en := initColors_names t hn
  have ec := initColors_cols t hc
  refine ⟨by decide, ?_, by rw [ec]; exact fixedCols_nodup⟩
  intro n hmem
  obtain ⟨c, hcn⟩ := lookupParallel_of_mem fixedColNames fixedCols n hmem (by decide)
  have h2 : lookupParallel fixedCols fixedColNames c = some n :=
    lookupParallel_inverse _ _ _ _ fixedCols_nodup hcn
  simp [Tikzit.colorByName, Tikzit.nameForColor, en, ec, hcn, h2]

/-- Witness of C1 on the freshly constructed object. -/
theorem C1_fixed_name_roundtrip_witness :
    Tikzit.new._colNames = [] ∧ Tikzit.new._cols = [] ∧
    (fixedColNames.length = 19 ∧
     (∀ n ∈ fixedColNames,
        Tikzit.new.initColors.nameForColor (Tikzit.new.initColors.colorByName n) = n) ∧
     Tikzit.new.initColors._cols.Nodup) :=
  ⟨rfl, rfl, C1_fixed_name_roundtrip Tikzit.new rfl rfl⟩

/-- Claim C2: after `initColors` on a `Tikzit` with an empty name table, for all 8-bit
channels `r`, `g`, `b` the name that `nameForColor` produces for `QColor(r, g, b)` (a fixed
name or the generated literal) is parsed back by `colorByName` to that colour. -/
theorem C2_color_name_roundtrip (t : Tikzit) (hn : t._colNames = [])
    (r g b : Nat) (hr : r ≤ 255) (hg : g ≤ 255) (hb : b ≤ 255) :
    t.initColors.colorByName (t.initColors.nameForColor (QColor.ofRgb r g b)) =
      QColor.ofRgb r g b :=
  color_roundtrip t.initColors (initColors_names t hn) r g b hr hg hb

/-- Witness of C2: a colour outside the table, on the freshly constructed object. -/
theorem C2_color_name_roundtrip_witness :
    Tikzit.new._colNames = [] ∧ 12 ≤ 255 ∧ 0 ≤ 255 ∧ 254 ≤ 255 ∧
    Tikzit.new.initColors.colorByName
      (Tikzit.new.initColors.nameForColor (QColor.ofRgb (12 : Nat) (0 : Nat) (254 : Nat))) =
      QColor.ofRgb (12 : Nat) (0 : Nat) (254 : Nat) :=
  ⟨rfl, by decide, by decide, by decide,
   C2_color_name_roundtrip Tikzit.new rfl 12 0 254 (by decide) (by decide) (by decide)⟩

/-- Claim C3: after `initColors` on a `Tikzit` with an empty colour table, for digit
strings `R`, `G`, `B` of value at most 255 and any white space in the gaps around the
separators, `colorByName` maps the literal `rgb,255:red,R;green,G;blue,B` to the valid
colour with these channels; for a fixed name the table entry is returned, the literal is
not consulted. -/
theorem C3_literal_parsed (t : Tikzit) (hn : t._colNames = []) (hc : t._cols = [])
    (gap : Nat → List Char) (R G B : List Char)
    (hg : ∀ i c, c ∈ gap i → isReSpace c = true)
    (hR : IsDigits R) (hG : IsDigits G) (hB : IsDigits B)
    (hr : decVal R ≤ 255) (hgv : decVal G ≤ 255) (hb : decVal B ≤ 255) :
    t.initColors.colorByName (rgbLiteral gap R G B) =
        QColor.ofRgb (decVal R) (decVal G) (decVal B) ∧
    (t.initColors.colorByName (rgbLiteral gap R G B)).isValid = true ∧
    (t.initColors.colorByName (rgbLiteral gap R G B)).red8 = decVal R ∧
    (t.initColors.colorByName (rgbLiteral gap R G B)).green8 = decVal G ∧
    (t.initColors.colorByName (rgbLiteral gap R G B)).blue8 = decVal B ∧
    (∀ name ∈ fixedColNames,
      lookupParallel fixedColNames fixedCols name = some (t.initColors.colorByName name)) := by
  have e := colorByName_literal t.initColors (initColors_names t hn) gap R G B hg hR hG hB
    hr hgv hb
  rw [e, ofRgb_nat _ _ _ hr hgv hb]
  refine ⟨rfl, rfl, ?_, ?_, ?_, ?_⟩
  · simp only [QColor.red8]; congr 1; omega
  · simp only [QColor.green8]; congr 1; omega
  · simp only [QColor.blue8]; congr 1; omega
  · intro name hmem
    obtain ⟨c, hcn⟩ := lookupParallel_of_mem fixedColNames fixedCols name hmem (by decide)
    simp [Tikzit.colorByName, initColors_names t hn, initColors_cols t hc, hcn]

/-- Witness of C3: `rgb , 255:red,007;green,0 ; blue,255` with a trailing newline. -/
theorem C3_literal_parsed_witness :
    Tikzit.new._colNames = [] ∧ Tikzit.new._cols = [] ∧
    (∀ i c, c ∈ (fun i => if i = 0 ∨ i = 1 ∨ i = 10 ∨ i = 11 then [' '] else
        if i = 14 then ['\n'] else []) i → isReSpace c = true) ∧
    IsDigits ['0', '0', '7'] ∧ IsDigits ['0'] ∧ IsDigits ['2', '5', '5'] ∧
    Tikzit.new.initColors.colorByName
      (rgbLiteral (fun i => if i = 0 ∨ i = 1 ∨ i = 10 ∨ i = 11 then [' '] else
        if i = 14 then ['\n'] else []) ['0', '0', '7'] ['0'] ['2', '5', '5']) =
      QColor.ofRgb 7 0 255 := by
  have hgap : ∀ i c, c ∈ (fun i => if i = 0 ∨ i = 1 ∨ i = 10 ∨ i = 11 then [' '] else
        if i = 14 then ['\n'] else []) i → isReSpace c = true := by
    intro i c h
    simp only at h
    split at h
    · simp only [List.mem_singleton] at h; rw [h]; decide
    · split at h
      · simp only [List.mem_singleton] at h; rw [h]; decide
      · simp at h
  have d1 : IsDigits ['0', '0', '7'] := ⟨by simp, by decide⟩
  have d2 : IsDigits ['0'] := ⟨by simp, by decide⟩
  have d3 : IsDigits ['2', '5', '5'] := ⟨by simp, by decide⟩
  exact ⟨rfl, rfl, hgap, d1, d2, d3,
    (C3_literal_parsed Tikzit.new rfl rfl _ _ _ _ hgap d1 d2 d3 (by decide) (by decide)
      (by decide)).1⟩

theorem active_new : activeInWindows Tikzit.new := by
  intro w h
  simp [Tikzit.new] at h

theorem active_newDoc (t : Tikzit) (w : WinPtr) (h : activeInWindows t) :
    activeInWindows (t.newDoc w) := by
  intro a ha
  have := h a (by simpa [Tikzit.newDoc] using ha)
  simp [Tikzit.newDoc, this]

theorem active_setActiveWindow (t : Tikzit) (w : Option WinPtr)
    (hw : ∀ a, w = some a → a ∈ t._windows) : activeInWindows (t.setActiveWindow w) := by
  intro a ha
  exact hw a (by simpa [Tikzit.setActiveWindow] using ha)

theorem active_removeWindow (t : Tikzit) (w : Option WinPtr) (h : activeInWindows t) :
    activeInWindows (t.removeWindow w) := by
  intro a ha
  unfold Tikzit.removeWindow at ha ⊢
  by_cases e : t._activeWindow = w
  · simp only [e, if_true] at ha ⊢
    cases hws : removeAll t._windows w with
    | nil => simp [hws] at ha
    | cons w0 ws =>
      simp only [hws] at ha ⊢
      simp only [Option.some.injEq] at ha
      simp [ha]
  · simp only [e, if_false] at ha ⊢
    have hin := h a ha
    cases w with
    | none => simpa [removeAll] using hin
    | some b =>
      have hne : a ≠ b := by
        rintro rfl
        exact e ha
      simp [removeAll, hin, hne]

theorem active_openSearch (t : Tikzit) (docOf : WinPtr → TikzDocument) (newWin : WinPtr)
    (fileName : QString) (h : activeInWindows t) :
    activeInWindows (t.openSearch docOf newWin fileName) := by
  intro a ha
  unfold Tikzit.openSearch at ha ⊢
  by_cases hh : List.filter (fun w => decide ((docOf w).fileName = fileName)) t._windows = []
  · simp only [hh, if_true] at ha ⊢
    have := h a ha
    simp [this]
  · simp only [hh, if_false] at ha ⊢
    exact h a ha

theorem active_open (t : Tikzit) (docOf : WinPtr → TikzDocument) (newWin : WinPtr)
    (fileName : QString) (h : activeInWindows t) :
    activeInWindows (t.open docOf newWin fileName) := by
  unfold Tikzit.open
  split
  · split
    · split
      · exact h
      · exact active_openSearch t docOf newWin fileName h
    · exact active_openSearch t docOf newWin fileName h
  · exact h

theorem loadStyles_windows (t : Tikzit) (fs : FileSys) (st : StylesPtr) (fileName : QString) :
    (t.loadStyles fs st fileName).2._windows = t._windows ∧
    (t.loadStyles fs st fileName).2._activeWindow = t._activeWindow := by
  unfold Tikzit.loadStyles
  split
  · split <;> exact ⟨rfl, rfl⟩
  · exact ⟨rfl, rfl⟩

theorem init_windows (t : Tikzit) (env : InitEnv) :
    (t.init env)._windows = t._windows ++ [env.newWindow] ∧
    (t.init env)._activeWindow = t._activeWindow := by
  unfold Tikzit.init
  simp only
  split <;> split <;> split <;>
    simp [Tikzit.setCheckForUpdates, Tikzit.checkForUpdates, loadStyles_windows,
      Tikzit.initColors]

theorem active_init (t : Tikzit) (env : InitEnv) (h : activeInWindows t) :
    activeInWindows (t.init env) := by
  intro a ha
  obtain ⟨hw, hact⟩ := init_windows t env
  rw [hact] at ha
  rw [hw]
  simp [h a ha]

/-- Claim C8 as stated fails: on the freshly constructed object, whose active window is
null, `setActiveWindow` with a window that is not in the (empty) list leaves an active
window outside the list. -/
theorem C8_counterexample :
    activeInWindows Tikzit.new ∧ ¬ activeInWindows (Tikzit.new.setActiveWindow (some 7)) := by
  refine ⟨active_new, ?_⟩
  intro h
  have := h 7 rfl
  simp [Tikzit.setActiveWindow, Tikzit.new] at this

/-- Claim C8, amended: "the active window is null or in the window list" holds after
construction, is preserved by `init`, `newDoc`, `open` and `removeWindow` for every
argument, and is established by `setActiveWindow(w)` when `w` is null or in the list. -/
theorem C8_active_window_invariant :
    activeInWindows Tikzit.new ∧
    (∀ (t : Tikzit) (env : InitEnv), activeInWindows t → activeInWindows (t.init env)) ∧
    (∀ (t : Tikzit) (w : WinPtr), activeInWindows t → activeInWindows (t.newDoc w)) ∧
    (∀ (t : Tikzit) (docOf : WinPtr → TikzDocument) (newWin : WinPtr) (fileName : QString),
      activeInWindows t → activeInWindows (t.open docOf newWin fileName)) ∧
    (∀ (t : Tikzit) (w : Option WinPtr),
      activeInWindows t → activeInWindows (t.removeWindow w)) ∧
    (∀ (t : Tikzit) (w : Option WinPtr), (∀ a, w = some a → a ∈ t._windows) →
      activeInWindows (t.setActiveWindow w)) :=
  ⟨active_new, active_init, active_newDoc, active_open, active_removeWindow,
   active_setActiveWindow⟩

/-- Witness of C8: two documents, the second made active and then removed. -/
theorem C8_active_window_invariant_witness :
    activeInWindows ((Tikzit.new.newDoc 1).newDoc 2) ∧
    (∀ a, some 2 = some a → a ∈ ((Tikzit.new.newDoc 1).newDoc 2)._windows) ∧
    activeInWindows ((((Tikzit.new.newDoc 1).newDoc 2).setActiveWindow (some 2)).removeWindow
      (some 2)) ∧
    ((((Tikzit.new.newDoc 1).newDoc 2).setActiveWindow (some 2)).removeWindow
      (some 2))._activeWindow = some 1 := by
  have hw : ∀ a, some 2 = some a → a ∈ ((Tikzit.new.newDoc 1).newDoc 2)._windows := by
    intro a h
    cases h
    decide
  have h1 := C8_active_window_invariant.2.2.1 _ 2
    (C8_active_window_invariant.2.2.1 _ 1 C8_active_window_invariant.1)
  exact ⟨h1, hw,
    C8_active_window_invariant.2.2.2.2.1 _ (some 2)
      (C8_active_window_invariant.2.2.2.2.2 _ (some 2) hw), by decide⟩

/-- Claim C9 as stated fails: with one window in the list and no active window,
`removeWindow` empties the list and does not call `quit`. -/
theorem C9_counterexample :
    1 ∈ (Tikzit.new.newDoc 1)._windows ∧
    ((Tikzit.new.newDoc 1).removeWindow (some 1))._windows = [] ∧
    Event.quit ∉ ((Tikzit.new.newDoc 1).removeWindow (some 1)).log := by
  decide

/-- Claim C9, amended: for every state and every window `w` in the window list that is
the active window, if the list is empty after `removeWindow(w)` then `removeWindow(w)` has
called `quit` (once, as its only call) and the active window is null. -/
theorem C9_remove_last_active_quits (t : Tikzit) (w : WinPtr) (_hw : w ∈ t._windows)
    (hact : t._activeWindow = some w) (hempty : (t.removeWindow (some w))._windows = []) :
    (t.removeWindow (some w)).log = t.log ++ [Event.quit] ∧
    (t.removeWindow (some w))._activeWindow = none := by
  unfold Tikzit.removeWindow at hempty ⊢
  simp only [hact, if_true] at hempty ⊢
  cases hws : removeAll t._windows (some w) with
  | nil => simp
  | cons w0 ws => simp [hws] at hempty

/-- Witness of C9: the only window is active and is removed. -/
theorem C9_remove_last_active_quits_witness :
    1 ∈ ((Tikzit.new.newDoc 1).setActiveWindow (some 1))._windows ∧
    ((Tikzit.new.newDoc 1).setActiveWindow (some 1))._activeWindow = some 1 ∧
    ((((Tikzit.new.newDoc 1).setActiveWindow (some 1)).removeWindow (some 1))._windows = []) ∧
    (((Tikzit.new.newDoc 1).setActiveWindow (some 1)).removeWindow (some 1)).log =
      ((Tikzit.new.newDoc 1).setActiveWindow (some 1)).log ++ [Event.quit] :=
  ⟨by decide, rfl, by decide,
   (C9_remove_last_active_quits ((Tikzit.new.newDoc 1).setActiveWindow (some 1)) 1
      (by decide) rfl (by decide)).1⟩

/-- Claim C10: when `loadStyles` returns false (exactly when the file does not exist or
does not parse), the state is the prior one except that one warning box was shown: the
style repository, the style file name and path and the window list are unchanged and no
`reloadStyles` call was made. -/
theorem C10_failed_load_keeps_state (t : Tikzit) (fs : FileSys) (st : StylesPtr)
    (fileName : QString) (hfail : (t.loadStyles fs st fileName).1 = false) :
    (fs.fileExists fileName = false ∨ fs.stylesLoad fileName = false) ∧
    (t.loadStyles fs st fileName).2._styles = t._styles ∧
    (t.loadStyles fs st fileName).2._styleFile = t._styleFile ∧
    (t.loadStyles fs st fileName).2._styleFilePath = t._styleFilePath ∧
    (t.loadStyles fs st fileName).2._windows = t._windows ∧
    (∃ box, (t.loadStyles fs st fileName).2 = { t with log := t.log ++ [Event.messageBox box] }) ∧
    (∀ w, Event.reloadStyles w ∈ (t.loadStyles fs st fileName).2.log →
      Event.reloadStyles w ∈ t.log) := by
  unfold Tikzit.loadStyles at hfail ⊢
  by_cases h1 : fs.fileExists fileName = true
  · by_cases h2 : fs.stylesLoad fileName = true
    · simp [h1, h2] at hfail
    · simp only [h1, h2, if_true, if_false]
      refine ⟨Or.inr (by simp [h2]), rfl, rfl, rfl, rfl, ⟨_, rfl⟩, ?_⟩
      intro w hw
      simp at hw
      exact hw
  · simp only [h1, if_false]
    refine ⟨Or.inl (by simp [h1]), rfl, rfl, rfl, rfl, ⟨_, rfl⟩, ?_⟩
    intro w hw
    simp at hw
    exact hw

/-- Witness of C10: a missing file, with one window open. -/
theorem C10_failed_load_keeps_state_witness :
    ((Tikzit.new.newDoc 1).loadStyles noFiles 5 ['a']).1 = false ∧
    ((Tikzit.new.newDoc 1).loadStyles noFiles 5 ['a']).2._styles = (Tikzit.new.newDoc 1)._styles ∧
    ((Tikzit.new.newDoc 1).loadStyles noFiles 5 ['a']).2._styleFile =
      (Tikzit.new.newDoc 1)._styleFile :=
  ⟨rfl,
   (C10_failed_load_keeps_state (Tikzit.new.newDoc 1) noFiles 5 ['a'] rfl).2.1,
   (C10_failed_load_keeps_state (Tikzit.new.newDoc 1) noFiles 5 ['a'] rfl).2.2.1⟩

theorem simplifiedGo_id (s : List Char) (hs : ∀ c ∈ s, QChar_isSpace c = false) (out : Bool) :
    simplifiedGo out false s = s := by
  induction s generalizing out with
  | nil => rfl
  | cons c t ih =>
    have hc := hs c (by simp)
    simp only [simplifiedGo, hc, Bool.false_eq_true, if_false]
    rw [ih (fun d hd => hs d (by simp [hd]))]

theorem simplified_id (s : List Char) (hs : ∀ c ∈ s, QChar_isSpace c = false) :
    simplified s = s :=
  simplifiedGo_id s hs false

theorem joinDots_cons (M : List Char) (segs : List (List Char)) :
    joinDots (M :: segs) = M ++ dotTail segs := by
  induction segs generalizing M with
  | nil => simp [joinDots, dotTail]
  | cons s t ih => simp [joinDots, dotTail, ih]

theorem run_group (n : Nat) (r : Re) (s : MState) (k : MState → Option MState) :
    Re.run (Re.group n r) s k = Re.run r s (fun s1 =>
      k ⟨s1.pos, s1.rest, (n, s.rest.take (s.rest.length - s1.rest.length)) :: s1.caps⟩) := by
  rw [Re.run]

theorem run_opt (r : Re) (s : MState) (k : MState → Option MState) :
    Re.run (Re.opt r) s k = (Re.run r s k).orElse (fun _ => k s) := by
  rw [Re.run]

theorem run_star (r : Re) (s : MState) (k : MState → Option MState) :
    Re.run (Re.star r) s k = starLoop (Re.run r) s.rest.length s k := by
  rw [Re.run]

/-- The captures left by the repeated group 1, latest first. -/
theorem lookup_group1 (segs : List (List Char)) (caps : List (Nat × QString)) :
    List.lookup 3 (segs.reverse.map (fun s => (1, '.' :: s)) ++ caps) = List.lookup 3 caps := by
  induction segs generalizing caps with
  | nil => simp
  | cons s t ih =>
    simp only [List.reverse_cons, List.map_append, List.map_cons, List.map_nil,
      List.append_assoc, List.singleton_append]
    rw [ih]
    simp [List.lookup]

theorem dotTail_startsNot_digit (segs : List (List Char)) (rest : List Char)
    (hr : StartsNot isDigit09 rest) : StartsNot isDigit09 (dotTail segs ++ rest) := by
  cases segs with
  | nil => simpa [dotTail] using hr
  | cons s t => exact startsNot_cons _ (by decide)

theorem starLoop_segments (k : MState → Option MState) (res : MState) (rest : List Char)
    (hdot : StartsNot (fun c => c == '.') rest) (hdig : StartsNot isDigit09 rest) :
    ∀ (segs : List (List Char)) (fuel pos : Nat) (caps : List (Nat × QString)),
      (∀ s ∈ segs, IsDigits s) → (dotTail segs).length ≤ fuel →
      k ⟨pos + (dotTail segs).length, rest,
          segs.reverse.map (fun s => (1, '.' :: s)) ++ caps⟩ = some res →
      starLoop (Re.run (Re.group 1 (Re.seq (Re.chr '.') (Re.plus (Re.cls isDigit09))))) fuel
        ⟨pos, dotTail segs ++ rest, caps⟩ k = some res := by
  intro segs
  induction segs with
  | nil =>
    intro fuel pos caps _ _ hk
    simp only [dotTail, List.length_nil, Nat.add_zero, List.reverse_nil, List.map_nil,
      List.nil_append] at hk ⊢
    cases fuel with
    | zero => simpa [starLoop] using hk
    | succ f =>
      have hfail : ∀ k2, Re.run (Re.group 1 (Re.seq (Re.chr '.') (Re.plus (Re.cls isDigit09))))
          ⟨pos, rest, caps⟩ k2 = none := by
        intro k2
        cases rest with
        | nil => simp [Re.run]
        | cons c t =>
          have := hdot c t rfl
          simp only [beq_eq_false_iff_ne, ne_eq] at this
          simp [Re.run, this]
      simp [starLoop, hfail, hk]
  | cons s t ih =>
    intro fuel pos caps hs hf hk
    cases fuel with
    | zero => simp [dotTail] at hf
    | succ f =>
      have hsd : IsDigits s := hs s (by simp)
      have hlen : (dotTail t).length ≤ f := by
        simp only [dotTail, List.length_cons, List.length_append] at hf
        omega
      have hk2 : k ⟨pos + 1 + s.length + (dotTail t).length, rest,
          t.reverse.map (fun s => (1, '.' :: s)) ++ ((1, '.' :: s) :: caps)⟩ = some res := by
        rw [← hk]
        congr 2
        · simp only [dotTail, List.length_cons, List.length_append]; omega
        · simp
      have e := ih f (pos + 1 + s.length) ((1, '.' :: s) :: caps)
        (fun x hx => hs x (by simp [hx])) hlen hk2
      have ht : ('.' :: (s ++ (dotTail t ++ rest))).take
          (('.' :: (s ++ (dotTail t ++ rest))).length - (dotTail t ++ rest).length) = '.' :: s := by
        have := take_append_sub ('.' :: s) (dotTail t ++ rest)
        simpa using this
      have hlt : (dotTail t ++ rest).length < ('.' :: (s ++ (dotTail t ++ rest))).length := by
        simp only [List.length_cons, List.length_append]; omega
      have hstep : Re.run (Re.group 1 (Re.seq (Re.chr '.') (Re.plus (Re.cls isDigit09))))
          ⟨pos, '.' :: (s ++ (dotTail t ++ rest)), caps⟩
          (fun s1 => if s1.rest.length < ('.' :: (s ++ (dotTail t ++ rest))).length
            then starLoop (Re.run (Re.group 1 (Re.seq (Re.chr '.') (Re.plus (Re.cls isDigit09)))))
              f s1 k else k s1) = some res := by
        rw [run_group, run_seq, run_chr]
        refine run_plus_cls hsd.1 hsd.2 (dotTail_startsNot_digit t rest hdig) _ _ _ _ ?_
        simp only [ht, hlt, if_true]
        exact e
      simp only [dotTail, List.cons_append, List.append_assoc, starLoop]
      rw [hstep]
      rfl

/-- The tail of the version pattern, after the major number and the dotted segments. -/
theorem versionRe_prefix (M : List Char) (segs : List (List Char)) (rest : List Char)
    (hM : M ≠ [] ∧ ∀ c ∈ M, isDigit19 c = true) (hs : ∀ s ∈ segs, IsDigits s)
    (hdot : StartsNot (fun c => c == '.') rest) (hdig : StartsNot isDigit09 rest)
    (res : MState)
    (hk : Re.run (Re.seq (Re.opt (Re.group 2 (
        Re.seq (Re.chr '-') <|
        Re.seq (Re.cls (fun c => c = 'r' || c = 'R')) <|
        Re.seq (Re.cls (fun c => c = 'c' || c = 'C')) (reNum 3)))) Re.eol)
      ⟨0 + M.length + (dotTail segs).length, rest,
        segs.reverse.map (fun s => (1, '.' :: s)) ++ []⟩ some = some res) :
    Re.doMatch versionRe (M ++ (dotTail segs ++ rest)) = some res := by
  apply doMatch_of_run
  unfold versionRe
  rw [run_seq, run_bol, run_seq]
  have h19 : StartsNot isDigit19 (dotTail segs ++ rest) := by
    intro c t e
    have := dotTail_startsNot_digit segs rest hdig c t e
    cases h : isDigit19 c with
    | false => rfl
    | true => rw [digit19_is_digit h] at this; cases this
  refine run_plus_cls hM.1 hM.2 h19 _ _ _ _ ?_
  rw [run_seq, run_star]
  exact starLoop_segments _ res rest hdot hdig segs _ _ _ hs (by simp) hk

theorem versionRe_match_plain (M : List Char) (segs : List (List Char))
    (hM : M ≠ [] ∧ ∀ c ∈ M, isDigit19 c = true) (hs : ∀ s ∈ segs, IsDigits s) :
    ∃ pos, Re.doMatch versionRe (M ++ dotTail segs) =
      some ⟨pos, [], segs.reverse.map (fun s => (1, '.' :: s))⟩ := by
  refine ⟨?_, ?_⟩
  swap
  · have := versionRe_prefix M segs [] hM hs (startsNot_nil _) (startsNot_nil _)
      ⟨0 + M.length + (dotTail segs).length, [], segs.reverse.map (fun s => (1, '.' :: s))⟩
      (by simp [Re.run])
    simpa using this

theorem versionRe_match_rc (M : List Char) (segs : List (List Char)) (r c : Char)
    (K : List Char) (hM : M ≠ [] ∧ ∀ c ∈ M, isDigit19 c = true) (hs : ∀ s ∈ segs, IsDigits s)
    (hr : r = 'r' ∨ r = 'R') (hc : c = 'c' ∨ c = 'C') (hK : IsDigits K) :
    ∃ pos, Re.doMatch versionRe (M ++ (dotTail segs ++ '-' :: r :: c :: K)) =
      some ⟨pos, [], (2, '-' :: r :: c :: K) :: (3, K) ::
        segs.reverse.map (fun s => (1, '.' :: s))⟩ := by
  refine ⟨?_, ?_⟩
  swap
  · refine versionRe_prefix M segs ('-' :: r :: c :: K) hM hs
      (startsNot_cons _ (by decide)) (startsNot_cons _ (by decide)) _ ?_
    have hr2 : (fun c => decide (c = 'r') || decide (c = 'R')) r = true := by
      rcases hr with h | h <;> simp [h]
    have hc2 : (fun c => decide (c = 'c') || decide (c = 'C')) c = true := by
      rcases hc with h | h <;> simp [h]
    rw [run_seq, run_opt, run_group, run_seq, run_chr, run_seq, run_cls hr2, run_seq,
      run_cls hc2]
    have e := run_reNum 3 hK (startsNot_nil isDigit09)
      (0 + M.length + (dotTail segs).length + 1 + 1 + 1)
      (segs.reverse.map (fun s => (1, '.' :: s)) ++ [])
      (fun s1 => Re.run Re.eol
        ⟨s1.pos, s1.rest,
          (2, ('-' :: r :: c :: K).take (('-' :: r :: c :: K).length - s1.rest.length)) ::
            s1.caps⟩ some)
      ⟨0 + M.length + (dotTail segs).length + 1 + 1 + 1 + K.length, [],
        (2, '-' :: r :: c :: K) :: (3, K) :: (segs.reverse.map (fun s => (1, '.' :: s)) ++ [])⟩
      (by simp [Re.run])
    simp only [List.append_nil] at e ⊢
    rw [e]
    exact rfl

theorem reportsInvalid_of_match (cur : QString) (reply : QNetworkReply) (manual : Bool)
    (h : hasMatch (Re.doMatch versionRe (simplified reply.text)) = true) :
    reportsInvalid (updateReply cur reply manual) = false := by
  unfold updateReply
  by_cases hr : reply.isReadable = true
  · simp only [hr, Bool.not_true, Bool.false_eq_true, if_false, h, if_true]
    split
    · simp [reportsInvalid, updateAvailableBox]
    · simp [reportsInvalid]
  · simp [hr, reportsInvalid]

theorem semverText_no_space (M minor patch : List Char) (rc : Option (List Char))
    (hM : ∀ c ∈ M, isDigit19 c = true) (hminor : IsDigits minor) (hpatch : IsDigits patch)
    (hrc : ∀ K, rc = some K → IsDigits K) :
    ∀ c ∈ semverText M minor patch rc, QChar_isSpace c = false := by
  intro c hc
  have hM2 : ∀ c ∈ M, QChar_isSpace c = false :=
    fun c h => digit_not_qspace (digit19_is_digit (hM c h))
  have hmi : ∀ c ∈ minor, QChar_isSpace c = false := fun c h => digit_not_qspace (hminor.2 c h)
  have hpa : ∀ c ∈ patch, QChar_isSpace c = false := fun c h => digit_not_qspace (hpatch.2 c h)
  cases rc with
  | none =>
    simp only [semverText, dotTail, List.mem_append, List.mem_cons, List.append_nil,
      List.not_mem_nil, or_false] at hc
    casesm* _ ∨ _
    all_goals first
      | exact hM2 c (by assumption)
      | exact hmi c (by assumption)
      | exact hpa c (by assumption)
      | (subst c; decide)
  | some K =>
    have hK : ∀ c ∈ K, QChar_isSpace c = false :=
      fun c h => digit_not_qspace ((hrc K rfl).2 c h)
    simp only [semverText, dotTail, List.mem_append, List.mem_cons, List.append_nil,
      List.not_mem_nil, or_false] at hc
    casesm* _ ∨ _
    all_goals first
      | exact hM2 c (by assumption)
      | exact hmi c (by assumption)
      | exact hpa c (by assumption)
      | exact hK c (by assumption)
      | (subst c; decide)

theorem semverText_match (M minor patch : List Char) (rc : Option (List Char))
    (hM : M ≠ [] ∧ ∀ c ∈ M, isDigit19 c = true) (hminor : IsDigits minor)
    (hpatch : IsDigits patch) (hrc : ∀ K, rc = some K → IsDigits K) :
    hasMatch (Re.doMatch versionRe (semverText M minor patch rc)) = true := by
  have hs : ∀ s ∈ [minor, patch], IsDigits s := by
    intro s h
    simp only [List.mem_cons, List.mem_singleton, List.not_mem_nil, or_false] at h
    rcases h with h | h <;> rw [h] <;> assumption
  cases rc with
  | none =>
    obtain ⟨pos, h⟩ := versionRe_match_plain M [minor, patch] hM hs
    simp only [semverText, List.append_nil]
    rw [h]; rfl
  | some K =>
    obtain ⟨pos, h⟩ := versionRe_match_rc M [minor, patch] 'r' 'c' K hM hs (Or.inl rfl)
      (Or.inl rfl) (hrc K rfl)
    simp only [semverText]
    rw [h]; rfl

/-- Claim C6: for a readable reply whose simplified text fails the validity check,
`updateReply` does not report an update; it shows the "Invalid response" warning, and
nothing else, when the check was manual, and shows nothing when it was automatic. -/
theorem C6_malformed_reply (cur : QString) (reply : QNetworkReply) (manual : Bool)
    (hread : reply.isReadable = true)
    (hbad : hasMatch (Re.doMatch versionRe (simplified reply.text)) = false) :
    reportsUpdate (updateReply cur reply manual) = false ∧
    (reportsInvalid (updateReply cur reply manual) = true ↔ manual = true) ∧
    (manual = true → updateReply cur reply manual = [invalidResponseBox]) ∧
    (manual = false → updateReply cur reply manual = []) := by
  unfold updateReply
  simp only [hread, Bool.not_true, Bool.false_eq_true, if_false, hbad]
  cases manual <;> simp [reportsUpdate, reportsInvalid, invalidResponseBox]

/-- Witness of C6: the reply `latest` to a manual check. -/
theorem C6_malformed_reply_witness :
    (⟨true, ['l', 'a', 't', 'e', 's', 't']⟩ : QNetworkReply).isReadable = true ∧
    hasMatch (Re.doMatch versionRe (simplified ['l', 'a', 't', 'e', 's', 't'])) = false ∧
    updateReply ['2', '.', '1'] ⟨true, ['l', 'a', 't', 'e', 's', 't']⟩ true =
      [invalidResponseBox] :=
  ⟨rfl, by decide,
   (C6_malformed_reply ['2', '.', '1'] ⟨true, ['l', 'a', 't', 'e', 's', 't']⟩ true rfl
      (by decide)).2.2.1 rfl⟩

/-- Claim C7 as stated fails: the semver-like replies `10.0.0` and `0.1.0` are rejected by
the validity check, and a manual check on `10.0.0` shows the "Invalid response" warning. -/
theorem C7_counterexample :
    hasMatch (Re.doMatch versionRe (simplified "10.0.0".toList)) = false ∧
    hasMatch (Re.doMatch versionRe (simplified "0.1.0".toList)) = false ∧
    reportsInvalid (updateReply "2.1.6".toList ⟨true, "10.0.0".toList⟩ true) = true := by
  decide

/-- Claim C7, amended: every reply `MAJOR.MINOR.PATCH` whose MAJOR is a non-empty string of
the digits 1 to 9 and whose MINOR and PATCH are non-empty strings of decimal digits,
optionally followed by `-rc` and a decimal number, passes the validity check: the
"Invalid response" branch is not taken. -/
theorem C7_semver_accepted (M minor patch : List Char) (rc : Option (List Char))
    (hM : M ≠ [] ∧ ∀ c ∈ M, isDigit19 c = true) (hminor : IsDigits minor)
    (hpatch : IsDigits patch) (hrc : ∀ K, rc = some K → IsDigits K)
    (cur : QString) (manual : Bool) :
    hasMatch (Re.doMatch versionRe (simplified (semverText M minor patch rc))) = true ∧
    reportsInvalid (updateReply cur ⟨true, semverText M minor patch rc⟩ manual) = false := by
  have e := simplified_id _ (semverText_no_space M minor patch rc hM.2 hminor hpatch hrc)
  have h := semverText_match M minor patch rc hM hminor hpatch hrc
  refine ⟨by rw [e]; exact h, ?_⟩
  apply reportsInvalid_of_match
  show hasMatch (Re.doMatch versionRe (simplified (semverText M minor patch rc))) = true
  rw [e]; exact h

/-- Witness of C7: the reply `2.10.0-rc3`. -/
theorem C7_semver_accepted_witness :
    (['2'] ≠ [] ∧ ∀ c ∈ ['2'], isDigit19 c = true) ∧ IsDigits ['1', '0'] ∧ IsDigits ['0'] ∧
    (∀ K, some ['3'] = some K → IsDigits K) ∧
    hasMatch (Re.doMatch versionRe
      (simplified (semverText ['2'] ['1', '0'] ['0'] (some ['3'])))) = true := by
  have h1 : ['2'] ≠ [] ∧ ∀ c ∈ ['2'], isDigit19 c = true := ⟨by simp, by decide⟩
  have h2 : IsDigits ['1', '0'] := ⟨by simp, by decide⟩
  have h3 : IsDigits ['0'] := ⟨by simp, by decide⟩
  have h4 : ∀ K, some ['3'] = some K → IsDigits K := by
    intro K h
    cases h
    exact ⟨by simp, by decide⟩
  exact ⟨h1, h2, h3, h4,
    (C7_semver_accepted ['2'] ['1', '0'] ['0'] (some ['3']) h1 h2 h3 h4 [] false).1⟩

/-- Claim C5 fails on the code for release-candidate numbers from 1000 on, because a
version without suffix is given the number 1000: with current `1.0.0` the reply
`1.0.0-rc1001` is reported as an update, and with current `1.0.0-rc1000` the reply `1.0.0`
is not. -/
theorem C5_rc_sentinel_collision :
    reportsUpdate (updateReply "1.0.0".toList ⟨true, "1.0.0-rc1001".toList⟩ false) = true ∧
    reportsUpdate (updateReply "1.0.0-rc1000".toList ⟨true, "1.0.0".toList⟩ false) = false ∧
    reportsUpdate (updateReply "1.0.0-rc2".toList ⟨true, "1.0.0".toList⟩ false) = true ∧
    reportsUpdate (updateReply "1.0.0".toList ⟨true, "1.0.0-rc2".toList⟩ false) = false := by
  decide

theorem goodSt_tail {pos : Nat} {d : Char} {t : List Char} {caps : List (Nat × QString)}
    (h : GoodSt ⟨pos, d :: t, caps⟩) (pos2 : Nat) : GoodSt ⟨pos2, t, caps⟩ := by
  refine ⟨?_, h.2⟩
  intro hm
  exact h.1 (List.mem_cons_of_mem d hm)

theorem pres_chr (c : Char) : Pres (Re.chr c) := by
  intro s k res hg h
  obtain ⟨pos, rest, caps⟩ := s
  cases rest with
  | nil => simp [Re.run] at h
  | cons d t =>
    by_cases e : d = c
    · simp only [Re.run, e, if_true] at h
      exact ⟨_, goodSt_tail hg _, h⟩
    · simp [Re.run, e] at h

theorem pres_cls (p : Char → Bool) : Pres (Re.cls p) := by
  intro s k res hg h
  obtain ⟨pos, rest, caps⟩ := s
  cases rest with
  | nil => simp [Re.run] at h
  | cons d t =>
    by_cases e : p d = true
    · simp only [Re.run, e, if_true] at h
      exact ⟨_, goodSt_tail hg _, h⟩
    · simp [Re.run, e] at h

theorem pres_seq {a b : Re} (ha : Pres a) (hb : Pres b) : Pres (Re.seq a b) := by
  intro s k res hg h
  rw [run_seq] at h
  obtain ⟨s1, hg1, h1⟩ := ha s _ res hg h
  exact hb s1 k res hg1 h1

theorem pres_starLoop {r : Re} (hr : Pres r) :
    ∀ (fuel : Nat) (s : MState) (k : MState → Option MState) (res : MState),
      GoodSt s → starLoop (Re.run r) fuel s k = some res →
      ∃ s1, GoodSt s1 ∧ k s1 = some res := by
  intro fuel
  induction fuel with
  | zero =>
    intro s k res hg h
    exact ⟨s, hg, by simpa [starLoop] using h⟩
  | succ f ih =>
    intro s k res hg h
    simp only [starLoop] at h
    cases h1 : Re.run r s (fun s1 =>
        if s1.rest.length < s.rest.length then starLoop (Re.run r) f s1 k else k s1) with
    | none =>
      rw [h1] at h
      exact ⟨s, hg, by simpa using h⟩
    | some r1 =>
      rw [h1] at h
      simp only [Option.orElse] at h
      obtain ⟨s1, hg1, hk1⟩ := hr s _ r1 hg h1
      split at hk1
      · obtain ⟨s2, hg2, hk2⟩ := ih s1 k r1 hg1 hk1
        exact ⟨s2, hg2, by rw [hk2, h]⟩
      · exact ⟨s1, hg1, by rw [hk1, h]⟩

theorem pres_star {r : Re} (hr : Pres r) : Pres (Re.star r) := by
  intro s k res hg h
  rw [run_star] at h
  exact pres_starLoop hr _ s k res hg h

theorem pres_plus {r : Re} (hr : Pres r) : Pres (Re.plus r) :=
  pres_seq hr (pres_star hr)

theorem pres_opt {r : Re} (hr : Pres r) : Pres (Re.opt r) := by
  intro s k res hg h
  rw [run_opt] at h
  cases h1 : Re.run r s k with
  | none =>
    rw [h1] at h
    exact ⟨s, hg, by simpa using h⟩
  | some r1 =>
    rw [h1] at h
    simp only [Option.orElse] at h
    obtain ⟨s1, hg1, hk1⟩ := hr s k r1 hg h1
    exact ⟨s1, hg1, by rw [hk1, h]⟩

theorem pres_group {n : Nat} {r : Re} (hn : n ≠ 3) (hr : Pres r) : Pres (Re.group n r) := by
  intro s k res hg h
  rw [run_group] at h
  obtain ⟨s1, hg1, hk1⟩ := hr s _ res hg h
  refine ⟨⟨s1.pos, s1.rest,
    (n, s.rest.take (s.rest.length - s1.rest.length)) :: s1.caps⟩, ⟨hg1.1, ?_⟩, hk1⟩
  have hne : (3 == n) = false := by
    rw [beq_eq_false_iff_ne]
    exact fun e => hn e.symm
  show List.lookup 3 ((n, s.rest.take (s.rest.length - s1.rest.length)) :: s1.caps) = none
  rw [List.lookup_cons, hne]
  exact hg1.2

theorem pres_dash (n : Nat) (r : Re) : Pres (Re.group n (Re.seq (Re.chr '-') r)) := by
  intro s k res hg h
  obtain ⟨pos, rest, caps⟩ := s
  rw [run_group, run_seq] at h
  cases rest with
  | nil => simp [Re.run] at h
  | cons d t =>
    have hd : d ≠ '-' := by
      rintro rfl
      exact hg.1 (by simp)
    simp [Re.run, hd] at h

theorem pres_bol : Pres Re.bol := by
  intro s k res hg h
  by_cases e : s.pos = 0
  · exact ⟨s, hg, by simpa [Re.run, e] using h⟩
  · simp [Re.run, e] at h

theorem pres_eol : Pres Re.eol := by
  intro s k res hg h
  by_cases e : s.rest = [] ∨ s.rest = ['\n']
  · refine ⟨s, hg, ?_⟩
    rw [Re.run] at h
    simpa only [e, if_true] using h
  · rw [Re.run] at h
    simp only [e, if_false] at h
    cases h

theorem pres_versionRe : Pres versionRe := by
  unfold versionRe
  exact pres_seq pres_bol (pres_seq (pres_plus (pres_cls _))
    (pres_seq (pres_star (pres_group (by decide) (pres_seq (pres_chr _) (pres_plus (pres_cls _)))))
      (pres_seq (pres_opt (pres_dash 2 _)) pres_eol)))

theorem search_no_dash :
    ∀ (l : List Char) (pos : Nat) (res : MState), '-' ∉ l →
      Re.search versionRe pos l = some res → res.caps.lookup 3 = none := by
  have key : ∀ (l : List Char) (pos : Nat) (res : MState), '-' ∉ l →
      Re.run versionRe ⟨pos, l, []⟩ some = some res → res.caps.lookup 3 = none := by
    intro l pos res hl h
    obtain ⟨s1, hg1, hk1⟩ := pres_versionRe ⟨pos, l, []⟩ some res ⟨hl, rfl⟩ h
    cases hk1
    exact hg1.2
  intro l
  induction l with
  | nil =>
    intro pos res hl h
    exact key [] pos res hl (by simpa [Re.search] using h)
  | cons c t ih =>
    intro pos res hl h
    simp only [Re.search] at h
    cases h1 : Re.run versionRe ⟨pos, c :: t, []⟩ some with
    | none =>
      rw [h1] at h
      exact ih (pos + 1) res (fun hm => hl (List.mem_cons_of_mem c hm)) (by simpa using h)
    | some r1 =>
      rw [h1] at h
      simp only [Option.orElse, Option.some.injEq] at h
      rw [← h]
      exact key _ pos r1 hl h1

theorem rcOf_no_dash (l : List Char) (hl : '-' ∉ l) : rcOf (Re.doMatch versionRe l) = 1000 := by
  unfold rcOf captured
  cases h : Re.doMatch versionRe l with
  | none => simp
  | some res =>
    have := search_no_dash l 0 res hl h
    simp [this]

theorem qstrtoull_digits (s rest : List Char) (hs : IsDigits s)
    (hr : StartsNot isDigit09 rest) :
    qstrtoull (s ++ rest) = if ULLONG_MAX < decVal s then none else some (decVal s, rest) := by
  have h1 : dropWhileB ascii_isspace (s ++ rest) = s ++ rest :=
    dropWhileB_startsNot (isDigits_startsNot rest hs (fun c => digit_not_asciispace))
  obtain ⟨c, t, rfl, hc⟩ := isDigits_head hs
  have hm : c ≠ '-' := by rintro rfl; revert hc; decide
  have hp : c ≠ '+' := by rintro rfl; revert hc; decide
  have h2 : takeWhileB isDigit09 (c :: t ++ rest) = c :: t := takeWhileB_append _ rest hs.2 hr
  have h3 : dropWhileB isDigit09 (c :: t ++ rest) = rest := dropWhileB_append _ rest hs.2 hr
  unfold qstrtoull
  simp only [h1]
  simp only [List.cons_append, List.head?_cons, Option.some.injEq, hm, hp, if_false]
  simp only [List.cons_append] at h2 h3
  simp only [h2, h3]
  simp

theorem qstrtoull_end (rest : List Char) (hr : rest = [] ∨ ∃ t, rest = '-' :: t) :
    qstrtoull rest = none := by
  rcases hr with rfl | ⟨t, rfl⟩
  · simp [qstrtoull, dropWhileB, takeWhileB]
  · have : ascii_isspace '-' = false := by decide
    simp [qstrtoull, dropWhileB, this]

theorem end_startsNot_digit (rest : List Char) (hr : rest = [] ∨ ∃ t, rest = '-' :: t) :
    StartsNot isDigit09 rest := by
  rcases hr with rfl | ⟨t, rfl⟩
  · exact startsNot_nil _
  · exact startsNot_cons _ (by decide)

theorem parsedSegs_cons (s : List Char) (tl : List (List Char)) :
    parsedSegs (s :: tl) =
      if decVal s ≤ INT_MAX then (decVal s : Int) :: parsedSegs tl else [] := by
  unfold parsedSegs
  by_cases h : decVal s ≤ INT_MAX
  · simp [List.takeWhile, h]
  · simp [List.takeWhile, h]

theorem fromStringLoop_segments (rest : List Char) (hr : rest = [] ∨ ∃ t, rest = '-' :: t) :
    ∀ (tl : List (List Char)) (s : List Char) (fuel : Nat), IsDigits s →
      (∀ x ∈ tl, IsDigits x) → (s ++ (dotTail tl ++ rest)).length < fuel →
      fromStringLoop fuel (s ++ (dotTail tl ++ rest)) = parsedSegs (s :: tl) := by
  intro tl
  induction tl with
  | nil =>
    intro s fuel hs _ hf
    cases fuel with
    | zero => simp at hf
    | succ f =>
      have hq := qstrtoull_digits s rest hs (end_startsNot_digit rest hr)
      simp only [dotTail, List.nil_append] at hf ⊢
      rw [fromStringLoop, hq, parsedSegs_cons]
      have hp : parsedSegs [] = [] := rfl
      by_cases h1 : ULLONG_MAX < decVal s
      · have h2 : ¬ decVal s ≤ INT_MAX := by unfold ULLONG_MAX at h1; unfold INT_MAX; omega
        simp [h1, h2]
      · by_cases h2 : INT_MAX < decVal s
        · have h3 : ¬ decVal s ≤ INT_MAX := by omega
          simp [h1, h2, h3]
        · have h3 : decVal s ≤ INT_MAX := by omega
          rcases hr with rfl | ⟨t, rfl⟩
          · simp [h1, h2, h3, hp]
          · simp [h1, h2, h3, hp]
  | cons s2 tl2 ih =>
    intro s fuel hs htl hf
    cases fuel with
    | zero => simp at hf
    | succ f =>
      have hs2 : IsDigits s2 := htl s2 (by simp)
      have hq := qstrtoull_digits s (dotTail (s2 :: tl2) ++ rest) hs
        (startsNot_cons _ (by decide))
      rw [fromStringLoop, hq, parsedSegs_cons]
      by_cases h1 : ULLONG_MAX < decVal s
      · have h2 : ¬ decVal s ≤ INT_MAX := by unfold ULLONG_MAX at h1; unfold INT_MAX; omega
        simp [h1, h2]
      · by_cases h2 : INT_MAX < decVal s
        · have h3 : ¬ decVal s ≤ INT_MAX := by omega
          simp [h1, h2, h3]
        · have h3 : decVal s ≤ INT_MAX := by omega
          have hne : s2 ++ (dotTail tl2 ++ rest) ≠ [] := by
            obtain ⟨c, t, rfl, _⟩ := isDigits_head hs2
            simp
          have hlen : (s2 ++ (dotTail tl2 ++ rest)).length < f := by
            simp only [dotTail, List.length_append, List.length_cons, List.cons_append] at hf ⊢
            omega
          have e := ih s2 f hs2 (fun x hx => htl x (by simp [hx])) hlen
          simp only [h1, h2, h3, if_false, if_true, dotTail, List.cons_append,
            List.append_assoc]
          simp only [List.append_assoc] at hne e
          simp only [ne_eq, hne, not_false_eq_true, if_true, e]

theorem fromString_segments (segs : List (List Char)) (rest : List Char)
    (hs : ∀ x ∈ segs, IsDigits x) (hr : rest = [] ∨ ∃ t, rest = '-' :: t) :
    QVersionNumber_fromString (joinDots segs ++ rest) = parsedSegs segs := by
  unfold QVersionNumber_fromString
  cases segs with
  | nil =>
    simp only [joinDots, List.nil_append]
    rw [fromStringLoop, qstrtoull_end rest hr]
    rfl
  | cons s tl =>
    rw [joinDots_cons, List.append_assoc]
    exact fromStringLoop_segments rest hr tl s _ (hs s (by simp))
      (fun x hx => hs x (by simp [hx])) (Nat.lt_succ_self _)

theorem parsedSegs_all (segs : List (List Char)) (h : ∀ x ∈ segs, decVal x ≤ INT_MAX) :
    parsedSegs segs = segs.map (fun s => (decVal s : Int)) := by
  induction segs with
  | nil => rfl
  | cons s tl ih =>
    rw [parsedSegs_cons, if_pos (h s (by simp)), ih (fun x hx => h x (by simp [hx]))]
    rfl

theorem normalized_cons (a : Int) (v : List Int) :
    normalized (a :: v) = if a = 0 ∧ normalized v = [] then [] else a :: normalized v := by
  unfold normalized
  rw [List.reverse_cons, List.dropWhile_append]
  by_cases h : (List.dropWhile (fun x => x == 0) v.reverse) = []
  · by_cases ha : a = 0
    · simp [h, ha]
    · simp [h, ha]
  · have h2 : (List.dropWhile (fun x => x == 0) v.reverse).isEmpty = false := by
      cases hd : List.dropWhile (fun x => x == 0) v.reverse with
      | nil => exact absurd hd h
      | cons _ _ => rfl
    simp [h, h2]

theorem normalized_nil : normalized [] = [] := rfl

theorem normalized_mem (v : List Int) : ∀ c ∈ normalized v, c ∈ v := by
  intro c hc
  unfold normalized at hc
  rw [List.mem_reverse] at hc
  have := (List.dropWhile_sublist (fun x => x == 0) (l := v.reverse)).subset hc
  simpa using this

theorem compare_nil_right (u : List Int) (hne : u ≠ []) (hpos : ∀ c ∈ u, 0 ≤ c) :
    0 < QVersionNumber_compare u [] := by
  cases u with
  | nil => exact absurd rfl hne
  | cons c t =>
    have := hpos c (by simp)
    simp only [QVersionNumber_compare]
    split <;> omega

theorem compare_nil_left (u : List Int) (hne : u ≠ []) (hpos : ∀ c ∈ u, 0 ≤ c) :
    QVersionNumber_compare [] u < 0 := by
  cases u with
  | nil => exact absurd rfl hne
  | cons c t =>
    have := hpos c (by simp)
    simp only [QVersionNumber_compare]
    split <;> omega

theorem cast_nonneg (l : List Nat) : ∀ c ∈ normalized (l.map (fun n : Nat => (n : Int))), 0 ≤ c := by
  intro c hc
  have := normalized_mem _ c hc
  simp only [List.mem_map] at this
  obtain ⟨n, _, rfl⟩ := this
  omega

theorem versionLt_nil_right (l : List Nat) : versionLt l [] = false := by
  cases l <;> rfl

theorem versionLt_nil_cons (b : Nat) (bs : List Nat) :
    versionLt [] (b :: bs) = if 0 < b then true else versionLt [] bs := by
  simp [versionLt, anyPositive]

theorem versionLt_cons_cons (a b : Nat) (as bs : List Nat) :
    versionLt (a :: as) (b :: bs) =
      if a < b then true else if b < a then false else versionLt as bs := by
  simp [versionLt]

theorem versionLt_nil_left (l : List Nat) :
    versionLt [] l = true ↔ normalized (l.map (fun n : Nat => (n : Int))) ≠ [] := by
  induction l with
  | nil => simp [versionLt, anyPositive, normalized_nil]
  | cons a t ih =>
    simp only [versionLt_nil_cons, List.map_cons, normalized_cons]
    by_cases ha : 0 < a
    · have : ¬ ((a : Int) = 0) := by omega
      simp [ha, this]
    · have h0 : (a : Int) = 0 := by omega
      simp only [ha, if_false, h0, true_and]
      rw [ih]
      by_cases hz : normalized (t.map (fun n : Nat => (n : Int))) = []
      · simp [hz]
      · simp [hz]

theorem compare_vs_nil (l : List Nat) :
    (0 < QVersionNumber_compare (normalized (l.map (fun n : Nat => (n : Int)))) [] ↔
        versionLt [] l = true) ∧
    ¬ (QVersionNumber_compare (normalized (l.map (fun n : Nat => (n : Int)))) [] < 0) ∧
    (QVersionNumber_compare [] (normalized (l.map (fun n : Nat => (n : Int)))) < 0 ↔
        versionLt [] l = true) ∧
    ¬ (0 < QVersionNumber_compare [] (normalized (l.map (fun n : Nat => (n : Int))))) := by
  have hp := cast_nonneg l
  have hv := versionLt_nil_left l
  generalize normalized (l.map (fun n : Nat => (n : Int))) = u at hp hv
  by_cases hz : u = []
  · subst hz
    have h1 : ¬ (versionLt [] l = true) := by rw [hv]; simp
    simp [QVersionNumber_compare, h1]
  · have h1 : versionLt [] l = true := hv.mpr hz
    have h2 := compare_nil_right u hz hp
    have h3 := compare_nil_left u hz hp
    simp only [h1, iff_true]
    exact ⟨h2, by omega, h3, by omega⟩

theorem compare_normalized (cur : List Nat) :
    ∀ lat : List Nat,
      (0 < QVersionNumber_compare (normalized (lat.map (fun n : Nat => (n : Int))))
            (normalized (cur.map (fun n : Nat => (n : Int)))) ↔ versionLt cur lat = true) ∧
      (QVersionNumber_compare (normalized (lat.map (fun n : Nat => (n : Int))))
            (normalized (cur.map (fun n : Nat => (n : Int)))) < 0 ↔ versionLt lat cur = true) := by
  induction cur with
  | nil =>
    intro lat
    obtain ⟨h1, h2, _, _⟩ := compare_vs_nil lat
    simp only [List.map_nil, normalized_nil, versionLt_nil_right]
    exact ⟨h1, ⟨fun h => absurd h h2, fun h => by cases h⟩⟩
  | cons a as ih =>
    intro lat
    cases lat with
    | nil =>
      obtain ⟨_, _, h3, h4⟩ := compare_vs_nil (a :: as)
      simp only [List.map_nil, normalized_nil, versionLt_nil_right]
      exact ⟨⟨fun h => absurd h h4, fun h => by cases h⟩, h3⟩
    | cons b bs =>
      obtain ⟨ih1, ih2⟩ := ih bs
      have pa := cast_nonneg as
      have pb := cast_nonneg bs
      simp only [List.map_cons, normalized_cons, versionLt_cons_cons]
      by_cases hab : a < b
      · have hb0 : ¬ ((b : Int) = 0) := by omega
        have hba : ¬ (b < a) := by omega
        simp only [hb0, false_and, if_false, hab, if_true, hba]
        by_cases hca : (a : Int) = 0 ∧ normalized (as.map (fun n : Nat => (n : Int))) = []
        · simp only [hca, and_self, if_true, QVersionNumber_compare, ne_eq, hb0,
            not_false_eq_true]
          refine ⟨⟨fun h => ?_, fun h => ?_⟩, ⟨fun h => ?_, fun h => ?_⟩⟩ <;>
            first | trivial | omega
        · have hne : (b : Int) ≠ (a : Int) := by omega
          simp only [hca, if_false, QVersionNumber_compare, ne_eq, hne, not_false_eq_true,
            if_true]
          refine ⟨⟨fun h => ?_, fun h => ?_⟩, ⟨fun h => ?_, fun h => ?_⟩⟩ <;>
            first | trivial | omega
      · by_cases hba : b < a
        · have ha0 : ¬ ((a : Int) = 0) := by omega
          simp only [ha0, false_and, if_false, hab, hba, if_true]
          by_cases hcb : (b : Int) = 0 ∧ normalized (bs.map (fun n : Nat => (n : Int))) = []
          · simp only [hcb, and_self, if_true, QVersionNumber_compare, ne_eq, ha0,
              not_false_eq_true]
            refine ⟨⟨fun h => ?_, fun h => ?_⟩, ⟨fun h => ?_, fun h => ?_⟩⟩ <;>
            first | trivial | omega
          · have hne : (b : Int) ≠ (a : Int) := by omega
            simp only [hcb, if_false, QVersionNumber_compare, ne_eq, hne, not_false_eq_true,
              if_true]
            refine ⟨⟨fun h => ?_, fun h => ?_⟩, ⟨fun h => ?_, fun h => ?_⟩⟩ <;>
            first | trivial | omega
        · have hEq : a = b := by omega
          subst hEq
          simp only [hab, hba, if_false]
          by_cases h0 : (a : Int) = 0
          · simp only [h0, true_and]
            by_cases hza : normalized (as.map (fun n : Nat => (n : Int))) = []
            · by_cases hzb : normalized (bs.map (fun n : Nat => (n : Int))) = []
              · simp only [hza, hzb, if_true]
                rw [hza, hzb] at ih1 ih2
                exact ⟨ih1, ih2⟩
              · simp only [hza, hzb, if_true, if_false, QVersionNumber_compare, ne_eq,
                  not_true_eq_false]
                rw [hza] at ih1 ih2
                have := compare_nil_right _ hzb pb
                constructor
                · constructor
                  · intro _; exact ih1.mp this
                  · intro _; omega
                · constructor
                  · intro h; omega
                  · intro h; have := ih2.mpr h; omega
            · by_cases hzb : normalized (bs.map (fun n : Nat => (n : Int))) = []
              · simp only [hza, hzb, if_true, if_false, QVersionNumber_compare, ne_eq,
                  not_true_eq_false]
                rw [hzb] at ih1 ih2
                have := compare_nil_left _ hza pa
                constructor
                · constructor
                  · intro h; omega
                  · intro h; have := ih1.mpr h; omega
                · constructor
                  · intro _; exact ih2.mp this
                  · intro _; omega
              · simp only [hza, hzb, if_false, QVersionNumber_compare, ne_eq,
                  not_true_eq_false]
                exact ⟨ih1, ih2⟩
          · simp only [h0, false_and, if_false, QVersionNumber_compare, ne_eq,
              not_true_eq_false]
            exact ⟨ih1, ih2⟩

theorem joinDots_chars (segs : List (List Char)) (hs : ∀ s ∈ segs, IsDigits s) :
    ∀ c ∈ joinDots segs, isDigit09 c = true ∨ c = '.' := by
  induction segs with
  | nil => intro c h; simp [joinDots] at h
  | cons s tl ih =>
    intro c h
    cases tl with
    | nil =>
      simp only [joinDots] at h
      exact Or.inl ((hs s (by simp)).2 c h)
    | cons s2 tl2 =>
      simp only [joinDots, List.mem_append, List.mem_cons] at h
      rcases h with h | h | h
      · exact Or.inl ((hs s (by simp)).2 c h)
      · exact Or.inr h
      · exact ih (fun x hx => hs x (by simp [hx])) c h

theorem joinDots_no_space (segs : List (List Char)) (hs : ∀ s ∈ segs, IsDigits s) :
    ∀ c ∈ joinDots segs, QChar_isSpace c = false := by
  intro c h
  rcases joinDots_chars segs hs c h with h1 | h1
  · exact digit_not_qspace h1
  · rw [h1]; decide

theorem joinDots_no_dash (segs : List (List Char)) (hs : ∀ s ∈ segs, IsDigits s) :
    '-' ∉ joinDots segs := by
  intro h
  rcases joinDots_chars segs hs _ h with h1 | h1
  · revert h1; decide
  · revert h1; decide

theorem fromString_joinDots (segs : List (List Char))
    (hs : ∀ s ∈ segs, IsDigits s ∧ decVal s ≤ INT_MAX) :
    QVersionNumber_fromString (joinDots segs) =
      (segs.map decVal).map (fun n : Nat => (n : Int)) := by
  have := fromString_segments segs [] (fun x hx => (hs x hx).1) (Or.inl rfl)
  rw [List.append_nil] at this
  rw [this, parsedSegs_all segs (fun x hx => (hs x hx).2), List.map_map]
  rfl

/-- The outcome of `updateReply` for two versions without suffix. -/
theorem update_plain (cur lat : List (List Char)) (manual : Bool)
    (hcur : ∀ s ∈ cur, IsDigits s ∧ decVal s ≤ INT_MAX)
    (hlat : ∀ s ∈ lat, IsDigits s ∧ decVal s ≤ INT_MAX)
    (hvalid : hasMatch (Re.doMatch versionRe (joinDots lat)) = true) :
    reportsUpdate (updateReply (joinDots cur) ⟨true, joinDots lat⟩ manual) = true ↔
      versionLt (cur.map decVal) (lat.map decVal) = true := by
  have hc1 : ∀ s ∈ cur, IsDigits s := fun s h => (hcur s h).1
  have hl1 : ∀ s ∈ lat, IsDigits s := fun s h => (hlat s h).1
  have e1 := simplified_id _ (joinDots_no_space lat hl1)
  have r1 := rcOf_no_dash _ (joinDots_no_dash cur hc1)
  have r2 := rcOf_no_dash _ (joinDots_no_dash lat hl1)
  have f1 := fromString_joinDots cur hcur
  have f2 := fromString_joinDots lat hlat
  have key := (compare_normalized (cur.map decVal) (lat.map decVal)).1
  rw [← f1, ← f2] at key
  unfold updateReply
  simp only [Bool.not_true, Bool.false_eq_true, if_false, e1, hvalid, if_true, r1, r2,
    lt_self_iff_false, and_false, or_false]
  rw [← key]
  by_cases h : 0 < QVersionNumber_compare
      (normalized (QVersionNumber_fromString (joinDots lat)))
      (normalized (QVersionNumber_fromString (joinDots cur)))
  · simp [reportsUpdate, updateAvailableBox, h]
  · simp [reportsUpdate, h]

/-- Claim C4 as stated fails: the valid reply `1.2147483648` has a greater component
sequence than the current version `1.0`, and no update is reported, because a component
above `INT_MAX` ends the reading of the version. -/
theorem C4_counterexample :
    hasMatch (Re.doMatch versionRe (joinDots ["1".toList, "2147483648".toList])) = true ∧
    versionLt (["1".toList, "0".toList].map decVal)
      (["1".toList, "2147483648".toList].map decVal) = true ∧
    reportsUpdate (updateReply (joinDots ["1".toList, "0".toList])
      ⟨true, joinDots ["1".toList, "2147483648".toList]⟩ false) = false := by
  decide

/-- Claim C4, amended: for a current version and a valid latest version, both dot-separated
digit strings without suffix whose components are at most `INT_MAX` = 2147483647,
`updateReply` reports "Update available" exactly when the latest component sequence is
greater than the current one, compared from the left with missing trailing components
counted as zero. -/
theorem C4_update_iff_newer (cur lat : List (List Char)) (manual : Bool)
    (hcur : ∀ s ∈ cur, IsDigits s ∧ decVal s ≤ INT_MAX)
    (hlat : ∀ s ∈ lat, IsDigits s ∧ decVal s ≤ INT_MAX)
    (hvalid : hasMatch (Re.doMatch versionRe (joinDots lat)) = true) :
    reportsUpdate (updateReply (joinDots cur) ⟨true, joinDots lat⟩ manual) = true ↔
      versionLt (cur.map decVal) (lat.map decVal) = true :=
  update_plain cur lat manual hcur hlat hvalid

/-- Witness of C4: the examples of the claim, `1.2.0` against `1.1.9` and `1.2` against
`1.2.0`. -/
theorem C4_update_iff_newer_witness :
    (∀ s ∈ ["1".toList, "1".toList, "9".toList], IsDigits s ∧ decVal s ≤ INT_MAX) ∧
    (∀ s ∈ ["1".toList, "2".toList, "0".toList], IsDigits s ∧ decVal s ≤ INT_MAX) ∧
    hasMatch (Re.doMatch versionRe (joinDots ["1".toList, "2".toList, "0".toList])) = true ∧
    (reportsUpdate (updateReply (joinDots ["1".toList, "1".toList, "9".toList])
        ⟨true, joinDots ["1".toList, "2".toList, "0".toList]⟩ false) = true ↔
      versionLt (["1".toList, "1".toList, "9".toList].map decVal)
        (["1".toList, "2".toList, "0".toList].map decVal) = true) ∧
    versionLt (["1".toList, "1".toList, "9".toList].map decVal)
        (["1".toList, "2".toList, "0".toList].map decVal) = true ∧
    versionLt (["1".toList, "2".toList, "0".toList].map decVal)
        (["1".toList, "2".toList].map decVal) = false :=
  ⟨by decide, by decide, by decide,
   C4_update_iff_newer _ _ false (by decide) (by decide) (by decide), by decide, by decide⟩

theorem newEvents_of_log {before after : Tikzit} {extra : List Event}
    (h : after.log = before.log ++ extra) : newEvents before after = extra := by
  simp [newEvents, h]

theorem count_reloadStyles (ws : List WinPtr) (w : WinPtr) :
    (ws.map Event.reloadStyles).count (Event.reloadStyles w) = ws.count w := by
  induction ws with
  | nil => rfl
  | cons a t ih =>
    by_cases e : a = w
    · subst e
      simp [ih]
    · have e2 : ¬ (Event.reloadStyles a = Event.reloadStyles w) := by
        intro h
        injection h with h1
        exact e h1
      have e3 : (a == w) = false := by simpa using e
      have e4 : (Event.reloadStyles a == Event.reloadStyles w) = false := by simpa using e
      simp [List.count_cons, ih, e3, e4]

theorem loadStyles_success (t : Tikzit) (fs : FileSys) (st : StylesPtr) (fileName : QString)
    (h : (t.loadStyles fs st fileName).1 = true) :
    (t.loadStyles fs st fileName).2 =
      { t with
        _styleFile := fs.baseName fileName
        _styleFilePath := fs.absoluteFilePath fileName
        _styles := some st
        log := t.log ++ [Event.stylesDeleteLater t._styles] ++
          t._windows.map Event.reloadStyles } := by
  unfold Tikzit.loadStyles at h ⊢
  by_cases h1 : fs.fileExists fileName = true
  · by_cases h2 : fs.stylesLoad fileName = true
    · simp [h1, h2]
    · simp [h1, h2] at h
  · simp [h1] at h

/-- Claim C11: when `loadStyles` returns true, and when `newTikzStyles` has a selected file
that is saved successfully, the current style repository is the newly created one, the
style file name and path are those of the given file, and the `reloadStyles` calls made
are one per entry of the window list, in order; so every window of a list without
repetition is called exactly once. -/
theorem C11_replaced_styles_notify :
    (∀ (t : Tikzit) (fs : FileSys) (st : StylesPtr) (fileName : QString),
      (t.loadStyles fs st fileName).1 = true →
      (t.loadStyles fs st fileName).2._styles = some st ∧
      (t.loadStyles fs st fileName).2._styleFile = fs.baseName fileName ∧
      (t.loadStyles fs st fileName).2._styleFilePath = fs.absoluteFilePath fileName ∧
      (t.loadStyles fs st fileName).2._windows = t._windows ∧
      newEvents t (t.loadStyles fs st fileName).2 =
        [Event.stylesDeleteLater t._styles] ++ t._windows.map Event.reloadStyles ∧
      (∀ w, (newEvents t (t.loadStyles fs st fileName).2).count (Event.reloadStyles w) =
        t._windows.count w) ∧
      (t._windows.Nodup → ∀ w ∈ t._windows,
        (newEvents t (t.loadStyles fs st fileName).2).count (Event.reloadStyles w) = 1)) ∧
    (∀ (t : Tikzit) (fs : FileSys) (absolutePath : QString → QString)
      (saveStyles : QString → Bool) (fileName : QString) (st : StylesPtr),
      saveStyles fileName = true →
      (t.newTikzStyles fs absolutePath saveStyles (some fileName) st)._styles = some st ∧
      (t.newTikzStyles fs absolutePath saveStyles (some fileName) st)._styleFile =
        fs.baseName fileName ∧
      (t.newTikzStyles fs absolutePath saveStyles (some fileName) st)._styleFilePath =
        fs.absoluteFilePath fileName ∧
      (t.newTikzStyles fs absolutePath saveStyles (some fileName) st)._windows = t._windows ∧
      (∀ w, (newEvents t (t.newTikzStyles fs absolutePath saveStyles (some fileName) st)).count
        (Event.reloadStyles w) = t._windows.count w) ∧
      (t._windows.Nodup → ∀ w ∈ t._windows,
        (newEvents t (t.newTikzStyles fs absolutePath saveStyles (some fileName) st)).count
          (Event.reloadStyles w) = 1)) := by
  constructor
  · intro t fs st fileName h
    have e := loadStyles_success t fs st fileName h
    have hl : (t.loadStyles fs st fileName).2.log =
        t.log ++ ([Event.stylesDeleteLater t._styles] ++ t._windows.map Event.reloadStyles) := by
      rw [e]; simp
    have hn := newEvents_of_log hl
    have hc : ∀ w, (newEvents t (t.loadStyles fs st fileName).2).count (Event.reloadStyles w) =
        t._windows.count w := by
      intro w
      rw [hn, List.count_append, count_reloadStyles]
      simp
    refine ⟨by rw [e], by rw [e], by rw [e], by rw [e], hn, hc, ?_⟩
    intro hnd w hw
    rw [hc w]
    exact List.count_eq_one_of_mem hnd hw
  · intro t fs absolutePath saveStyles fileName st h
    have hl : (t.newTikzStyles fs absolutePath saveStyles (some fileName) st).log =
        t.log ++ ([Event.settingsSetValue "previous-tikzstyles-file".toList fileName,
           Event.settingsSetValue "previous-tikzstyles-path".toList (absolutePath fileName),
           Event.stylesDeleteLater t._styles] ++ t._windows.map Event.reloadStyles) := by
      simp [Tikzit.newTikzStyles, h]
    have hn := newEvents_of_log hl
    have hc : ∀ w, (newEvents t (t.newTikzStyles fs absolutePath saveStyles (some fileName)
        st)).count (Event.reloadStyles w) = t._windows.count w := by
      intro w
      rw [hn, List.count_append, count_reloadStyles]
      simp
    refine ⟨by simp [Tikzit.newTikzStyles, h], by simp [Tikzit.newTikzStyles, h],
      by simp [Tikzit.newTikzStyles, h], by simp [Tikzit.newTikzStyles, h], hc, ?_⟩
    intro hnd w hw
    rw [hc w]
    exact List.count_eq_one_of_mem hnd hw

/-- Witness of C11: a style file is loaded with two windows open. -/
theorem C11_replaced_styles_notify_witness :
    (((Tikzit.new.newDoc 1).newDoc 2).loadStyles allFiles 5 ['a']).1 = true ∧
    (((Tikzit.new.newDoc 1).newDoc 2).loadStyles allFiles 5 ['a']).2._styles = some 5 ∧
    ((Tikzit.new.newDoc 1).newDoc 2)._windows.Nodup ∧
    (newEvents ((Tikzit.new.newDoc 1).newDoc 2)
      (((Tikzit.new.newDoc 1).newDoc 2).loadStyles allFiles 5 ['a']).2).count
        (Event.reloadStyles 1) = 1 :=
  ⟨rfl,
   (C11_replaced_styles_notify.1 ((Tikzit.new.newDoc 1).newDoc 2) allFiles 5 ['a'] rfl).1,
   by decide,
   (C11_replaced_styles_notify.1 ((Tikzit.new.newDoc 1).newDoc 2) allFiles 5 ['a']
      rfl).2.2.2.2.2.2 (by decide) 1 (by decide)⟩

/-- The operation `loadStyles` leaves the two colour sequences as they are. -/
theorem table_loadStyles (t : Tikzit) (fs : FileSys) (st : StylesPtr) (fileName : QString) :
    (t.loadStyles fs st fileName).2._colNames = t._colNames ∧
    (t.loadStyles fs st fileName).2._cols = t._cols := by
  unfold Tikzit.loadStyles
  split
  · split <;> exact ⟨rfl, rfl⟩
  · exact ⟨rfl, rfl⟩

theorem table_openSearch (t : Tikzit) (docOf : WinPtr → TikzDocument) (newWin : WinPtr)
    (fileName : QString) :
    (t.openSearch docOf newWin fileName)._colNames = t._colNames ∧
    (t.openSearch docOf newWin fileName)._cols = t._cols := by
  unfold Tikzit.openSearch
  simp only
  split <;> exact ⟨rfl, rfl⟩

theorem table_open (t : Tikzit) (docOf : WinPtr → TikzDocument) (newWin : WinPtr)
    (fileName : QString) :
    (t.open docOf newWin fileName)._colNames = t._colNames ∧
    (t.open docOf newWin fileName)._cols = t._cols := by
  unfold Tikzit.open
  split
  · split
    · split
      · exact ⟨rfl, rfl⟩
      · exact table_openSearch t docOf newWin fileName
    · exact table_openSearch t docOf newWin fileName
  · exact ⟨rfl, rfl⟩

theorem table_removeWindow (t : Tikzit) (w : Option WinPtr) :
    (t.removeWindow w)._colNames = t._colNames ∧ (t.removeWindow w)._cols = t._cols := by
  unfold Tikzit.removeWindow
  simp only
  split
  · split <;> exact ⟨rfl, rfl⟩
  · exact ⟨rfl, rfl⟩

theorem table_newTikzStyles (t : Tikzit) (fs : FileSys) (absolutePath : QString → QString)
    (saveStyles : QString → Bool) (selected : Option QString) (st : StylesPtr) :
    (t.newTikzStyles fs absolutePath saveStyles selected st)._colNames = t._colNames ∧
    (t.newTikzStyles fs absolutePath saveStyles selected st)._cols = t._cols := by
  unfold Tikzit.newTikzStyles
  split
  · exact ⟨rfl, rfl⟩
  · split <;> exact ⟨rfl, rfl⟩

theorem table_openTikzStyles (t : Tikzit) (fs : FileSys) (absolutePath : QString → QString)
    (selected : QString) (st : StylesPtr) :
    (t.openTikzStyles fs absolutePath selected st)._colNames = t._colNames ∧
    (t.openTikzStyles fs absolutePath selected st)._cols = t._cols := by
  have h := table_loadStyles t fs st selected
  unfold Tikzit.openTikzStyles
  split
  · split
    · split
      · exact h
      · exact h
    · exact ⟨rfl, rfl⟩
  · exact ⟨rfl, rfl⟩

theorem table_makePreview (t : Tikzit) (newProc : ProcPtr) (isEmptyOf : WinPtr → Bool)
    (sourceOf : WinPtr → QString) :
    (t.makePreview newProc isEmptyOf sourceOf)._colNames = t._colNames ∧
    (t.makePreview newProc isEmptyOf sourceOf)._cols = t._cols := by
  unfold Tikzit.makePreview
  split <;> exact ⟨rfl, rfl⟩

theorem table_cleanupLatex (t : Tikzit) :
    t.cleanupLatex._colNames = t._colNames ∧ t.cleanupLatex._cols = t._cols := by
  unfold Tikzit.cleanupLatex
  split <;> exact ⟨rfl, rfl⟩

/-- Claim C12: after `initColors` on a `Tikzit` with empty colour sequences both sequences
have exactly 19 entries, and every window, style, update and preview operation leaves both
sequences as they are.  (The lookups `colorByIndex`, `colorByName` and `nameForColor`
assign no field; they are functions of the state that return only their result.) -/
theorem C12_color_table_stable :
    (∀ t : Tikzit, t._colNames = [] → t._cols = [] →
      t.initColors._colNames.length = 19 ∧ t.initColors._cols.length = 19) ∧
    (∀ (t : Tikzit) (w : WinPtr),
      (t.newDoc w)._colNames = t._colNames ∧ (t.newDoc w)._cols = t._cols) ∧
    (∀ (t : Tikzit) (w : Option WinPtr),
      (t.setActiveWindow w)._colNames = t._colNames ∧ (t.setActiveWindow w)._cols = t._cols) ∧
    (∀ (t : Tikzit) (w : Option WinPtr),
      (t.removeWindow w)._colNames = t._colNames ∧ (t.removeWindow w)._cols = t._cols) ∧
    (∀ (t : Tikzit) (docOf : WinPtr → TikzDocument) (newWin : WinPtr) (fileName : QString),
      (t.open docOf newWin fileName)._colNames = t._colNames ∧
      (t.open docOf newWin fileName)._cols = t._cols) ∧
    (∀ (t : Tikzit) (fs : FileSys) (st : StylesPtr) (fileName : QString),
      (t.loadStyles fs st fileName).2._colNames = t._colNames ∧
      (t.loadStyles fs st fileName).2._cols = t._cols) ∧
    (∀ (t : Tikzit) (fs : FileSys) (absolutePath : QString → QString)
      (saveStyles : QString → Bool) (selected : Option QString) (st : StylesPtr),
      (t.newTikzStyles fs absolutePath saveStyles selected st)._colNames = t._colNames ∧
      (t.newTikzStyles fs absolutePath saveStyles selected st)._cols = t._cols) ∧
    (∀ (t : Tikzit) (fs : FileSys) (absolutePath : QString → QString) (selected : QString)
      (st : StylesPtr),
      (t.openTikzStyles fs absolutePath selected st)._colNames = t._colNames ∧
      (t.openTikzStyles fs absolutePath selected st)._cols = t._cols) ∧
    (∀ (t : Tikzit) (check : Bool),
      (t.setCheckForUpdates check)._colNames = t._colNames ∧
      (t.setCheckForUpdates check)._cols = t._cols) ∧
    (∀ (t : Tikzit) (manual : Bool),
      (t.checkForUpdates manual)._colNames = t._colNames ∧
      (t.checkForUpdates manual)._cols = t._cols) ∧
    (∀ (t : Tikzit) (version : QString) (reply : QNetworkReply),
      (t.updateAuto version reply)._colNames = t._colNames ∧
      (t.updateAuto version reply)._cols = t._cols ∧
      (t.updateManual version reply)._colNames = t._colNames ∧
      (t.updateManual version reply)._cols = t._cols) ∧
    (∀ (t : Tikzit) (newProc : ProcPtr) (isEmptyOf : WinPtr → Bool)
      (sourceOf : WinPtr → QString),
      (t.makePreview newProc isEmptyOf sourceOf)._colNames = t._colNames ∧
      (t.makePreview newProc isEmptyOf sourceOf)._cols = t._cols) ∧
    (∀ t : Tikzit, t.cleanupLatex._colNames = t._colNames ∧ t.cleanupLatex._cols = t._cols) := by
  refine ⟨?_, fun _ _ => ⟨rfl, rfl⟩, fun _ _ => ⟨rfl, rfl⟩, table_removeWindow, table_open,
    table_loadStyles, table_newTikzStyles, table_openTikzStyles, fun _ _ => ⟨rfl, rfl⟩,
    fun _ _ => ⟨rfl, rfl⟩, fun _ _ _ => ⟨rfl, rfl, rfl, rfl⟩, table_makePreview,
    table_cleanupLatex⟩
  intro t hn hc
  rw [initColors_names t hn, initColors_cols t hc]
  exact ⟨by decide, by decide⟩

/-- Witness of C12: the freshly constructed object, then a window is opened and closed. -/
theorem C12_color_table_stable_witness :
    Tikzit.new._colNames = [] ∧ Tikzit.new._cols = [] ∧
    Tikzit.new.initColors._colNames.length = 19 ∧ Tikzit.new.initColors._cols.length = 19 ∧
    ((Tikzit.new.initColors.newDoc 1).removeWindow (some 1))._cols =
      (Tikzit.new.initColors.newDoc 1)._cols :=
  ⟨rfl, rfl, (C12_color_table_stable.1 Tikzit.new rfl rfl).1,
   (C12_color_table_stable.1 Tikzit.new rfl rfl).2,
   (C12_color_table_stable.2.2.2.1 (Tikzit.new.initColors.newDoc 1) (some 1)).2⟩

/-- Claim C13: with a non-null active window `makePreview` makes the freshly created
process the current one; if there was a previous process it is killed and released, once
each and before anything else, and no other process is killed or released; without a
previous process nothing is killed or released.  Without an active window `makePreview`
changes nothing. -/
theorem C13_preview_kills_previous :
    (∀ (t : Tikzit) (newProc : ProcPtr) (isEmptyOf : WinPtr → Bool)
      (sourceOf : WinPtr → QString) (w : WinPtr), t._activeWindow = some w →
      (t.makePreview newProc isEmptyOf sourceOf)._latex = some newProc ∧
      (∀ oldProc, t._latex = some oldProc →
        (newEvents t (t.makePreview newProc isEmptyOf sourceOf)).take 2 =
          [Event.procKill oldProc, Event.procDeleteLater oldProc] ∧
        (newEvents t (t.makePreview newProc isEmptyOf sourceOf)).count
          (Event.procKill oldProc) = 1 ∧
        (newEvents t (t.makePreview newProc isEmptyOf sourceOf)).count
          (Event.procDeleteLater oldProc) = 1 ∧
        (∀ p, (Event.procKill p ∈ newEvents t (t.makePreview newProc isEmptyOf sourceOf) ∨
            Event.procDeleteLater p ∈ newEvents t (t.makePreview newProc isEmptyOf sourceOf)) →
          p = oldProc)) ∧
      (t._latex = none → ∀ p,
        Event.procKill p ∉ newEvents t (t.makePreview newProc isEmptyOf sourceOf) ∧
        Event.procDeleteLater p ∉ newEvents t (t.makePreview newProc isEmptyOf sourceOf))) ∧
    (∀ (t : Tikzit) (newProc : ProcPtr) (isEmptyOf : WinPtr → Bool)
      (sourceOf : WinPtr → QString), t._activeWindow = none →
      t.makePreview newProc isEmptyOf sourceOf = t) := by
  constructor
  · intro t newProc isEmptyOf sourceOf w hw
    refine ⟨by simp [Tikzit.makePreview, hw], ?_, ?_⟩
    · intro oldProc hold
      have hl : (t.makePreview newProc isEmptyOf sourceOf).log =
          t.log ++ [Event.procKill oldProc, Event.procDeleteLater oldProc,
            Event.connectPreviewFinished newProc,
            Event.procMakePreview newProc
              (if isEmptyOf w then emptyPreviewSource else sourceOf w),
            Event.previewShow, Event.previewRestorePosition, Event.previewRaise,
            Event.previewActivate] := by
        simp [Tikzit.makePreview, hw, hold]
      rw [newEvents_of_log hl]
      refine ⟨rfl, by simp [List.count_cons], by simp [List.count_cons], ?_⟩
      intro p hp
      simpa using hp
    · intro hnone p
      have hl : (t.makePreview newProc isEmptyOf sourceOf).log =
          t.log ++ [Event.connectPreviewFinished newProc,
            Event.procMakePreview newProc
              (if isEmptyOf w then emptyPreviewSource else sourceOf w),
            Event.previewShow, Event.previewRestorePosition, Event.previewRaise,
            Event.previewActivate] := by
        simp [Tikzit.makePreview, hw, hnone]
      rw [newEvents_of_log hl]
      simp
  · intro t newProc isEmptyOf sourceOf h
    simp [Tikzit.makePreview, h]

/-- Witness of C13: a second preview request while the process 8 is still current. -/
theorem C13_preview_kills_previous_witness :
    (((Tikzit.new.newDoc 1).setActiveWindow (some 1)).makePreview 8 (fun _ => true)
      (fun _ => []))._activeWindow = some 1 ∧
    (((Tikzit.new.newDoc 1).setActiveWindow (some 1)).makePreview 8 (fun _ => true)
      (fun _ => []))._latex = some 8 ∧
    ((((Tikzit.new.newDoc 1).setActiveWindow (some 1)).makePreview 8 (fun _ => true)
      (fun _ => [])).makePreview 9 (fun _ => true) (fun _ => []))._latex = some 9 ∧
    (newEvents (((Tikzit.new.newDoc 1).setActiveWindow (some 1)).makePreview 8 (fun _ => true)
      (fun _ => []))
      ((((Tikzit.new.newDoc 1).setActiveWindow (some 1)).makePreview 8 (fun _ => true)
        (fun _ => [])).makePreview 9 (fun _ => true) (fun _ => []))).take 2 =
      [Event.procKill 8, Event.procDeleteLater 8] :=
  ⟨rfl, rfl,
   (C13_preview_kills_previous.1 _ 9 (fun _ => true) (fun _ => []) 1 rfl).1,
   ((C13_preview_kills_previous.1
      (((Tikzit.new.newDoc 1).setActiveWindow (some 1)).makePreview 8 (fun _ => true)
        (fun _ => [])) 9 (fun _ => true) (fun _ => []) 1 rfl).2.1 8 rfl).1⟩

theorem alreadyOpen_iff (t : Tikzit) (docOf : WinPtr → TikzDocument) (fileName : QString) :
    alreadyOpen t docOf fileName ↔
      t._windows.filter (fun w => decide ((docOf w).fileName = fileName)) ≠ [] := by
  unfold alreadyOpen
  rw [Ne, List.filter_eq_nil_iff]
  constructor
  · rintro ⟨w, hw, he⟩ h
    exact h w hw (by simpa using he)
  · intro h
    by_contra hc
    apply h
    intro w hw
    simp only [decide_eq_true_eq]
    intro he
    exact hc ⟨w, hw, he⟩

theorem openSearch_windows (t : Tikzit) (docOf : WinPtr → TikzDocument) (newWin : WinPtr)
    (fileName : QString) :
    (alreadyOpen t docOf fileName → (t.openSearch docOf newWin fileName)._windows = t._windows) ∧
    (¬ alreadyOpen t docOf fileName →
      (t.openSearch docOf newWin fileName)._windows = t._windows ++ [newWin]) := by
  rw [alreadyOpen_iff]
  unfold Tikzit.openSearch
  by_cases hh : List.filter (fun w => decide ((docOf w).fileName = fileName)) t._windows = []
  · rw [if_pos hh]
    exact ⟨fun h => absurd hh h, fun _ => rfl⟩
  · rw [if_neg hh]
    exact ⟨fun _ => rfl, fun h => absurd hh h⟩

theorem open_eq_openSearch (t : Tikzit) (docOf : WinPtr → TikzDocument) (newWin : WinPtr)
    (fileName : QString) (hf : fileName ≠ []) (hfresh : ¬ onlyWindowFresh t docOf) :
    t.open docOf newWin fileName = t.openSearch docOf newWin fileName := by
  unfold Tikzit.open
  simp only [hf, ne_eq, not_false_eq_true, if_true]
  split
  · rename_i w0 hws
    split
    · rename_i hc
      exact absurd ⟨w0, hws, hc.1, hc.2⟩ hfresh
    · rfl
  · rfl

theorem open_fresh (t : Tikzit) (docOf : WinPtr → TikzDocument) (newWin : WinPtr)
    (fileName : QString) (hfresh : onlyWindowFresh t docOf) :
    (t.open docOf newWin fileName)._windows = t._windows := by
  obtain ⟨w0, hws, hc, hn⟩ := hfresh
  unfold Tikzit.open
  split
  · split
    · rename_i w1 hws1
      split
      · rfl
      · rename_i hnot
        rw [hws] at hws1
        injection hws1 with h1 _
        subst h1
        exact absurd ⟨hc, hn⟩ hnot
    · rename_i hne
      exact absurd hws (hne w0)
  · rfl

/-- Claim C14: `open(fileName)` changes nothing for the empty file name; it leaves the
window list unchanged if the only window holds a clean document without a name or some
window already shows the file; otherwise it appends exactly the one new window at the end,
the existing windows keeping their places.  In every case the old list is kept as the
beginning of the new one: no window is removed. -/
theorem C14_open_window_list (t : Tikzit) (docOf : WinPtr → TikzDocument) (newWin : WinPtr)
    (fileName : QString) :
    (fileName = [] → t.open docOf newWin fileName = t) ∧
    (fileName ≠ [] → (onlyWindowFresh t docOf ∨ alreadyOpen t docOf fileName) →
      (t.open docOf newWin fileName)._windows = t._windows) ∧
    (fileName ≠ [] → ¬ onlyWindowFresh t docOf → ¬ alreadyOpen t docOf fileName →
      (t.open docOf newWin fileName)._windows = t._windows ++ [newWin]) ∧
    ((t.open docOf newWin fileName)._windows = t._windows ∨
      (t.open docOf newWin fileName)._windows = t._windows ++ [newWin]) := by
  have h2 : fileName ≠ [] → (onlyWindowFresh t docOf ∨ alreadyOpen t docOf fileName) →
      (t.open docOf newWin fileName)._windows = t._windows := by
    intro hf h
    by_cases hfresh : onlyWindowFresh t docOf
    · exact open_fresh t docOf newWin fileName hfresh
    · rw [open_eq_openSearch t docOf newWin fileName hf hfresh]
      rcases h with h | h
      · exact absurd h hfresh
      · exact (openSearch_windows t docOf newWin fileName).1 h
  have h3 : fileName ≠ [] → ¬ onlyWindowFresh t docOf → ¬ alreadyOpen t docOf fileName →
      (t.open docOf newWin fileName)._windows = t._windows ++ [newWin] := by
    intro hf hfresh hopen
    rw [open_eq_openSearch t docOf newWin fileName hf hfresh]
    exact (openSearch_windows t docOf newWin fileName).2 hopen
  have h1 : fileName = [] → t.open docOf newWin fileName = t := by
    intro hf
    simp [Tikzit.open, hf]
  refine ⟨h1, h2, h3, ?_⟩
  by_cases hf : fileName = []
  · exact Or.inl (by rw [h1 hf])
  · by_cases hc : onlyWindowFresh t docOf ∨ alreadyOpen t docOf fileName
    · exact Or.inl (h2 hf hc)
    · exact Or.inr (h3 hf (fun h => hc (Or.inl h)) (fun h => hc (Or.inr h)))

/-- Witness of C14: with the windows 1 and 2 showing other files, opening `a` appends the
new window 3; opening it again when window 3 shows `a` leaves the list as it is. -/
theorem C14_open_window_list_witness :
    (((Tikzit.new.newDoc 1).newDoc 2).open (fun _ => ⟨false, ['x'], ['x']⟩) 3 ['a'])._windows =
      [1, 2, 3] ∧
    alreadyOpen ((Tikzit.new.newDoc 1).newDoc 2)
      (fun w => if w = 2 then ⟨false, ['a'], ['a']⟩ else ⟨false, ['x'], ['x']⟩) ['a'] ∧
    (((Tikzit.new.newDoc 1).newDoc 2).open
      (fun w => if w = 2 then ⟨false, ['a'], ['a']⟩ else ⟨false, ['x'], ['x']⟩) 3
      ['a'])._windows = [1, 2] := by
  have hne : (['a'] : QString) ≠ [] := by simp
  have hop : alreadyOpen ((Tikzit.new.newDoc 1).newDoc 2)
      (fun w => if w = 2 then ⟨false, ['a'], ['a']⟩ else ⟨false, ['x'], ['x']⟩) ['a'] :=
    ⟨2, by decide, by simp⟩
  have hnf : ¬ onlyWindowFresh ((Tikzit.new.newDoc 1).newDoc 2)
      (fun _ => ⟨false, ['x'], ['x']⟩) := by
    rintro ⟨w0, _, hc, _⟩
    simp at hc
  have hno : ¬ alreadyOpen ((Tikzit.new.newDoc 1).newDoc 2)
      (fun _ => ⟨false, ['x'], ['x']⟩) ['a'] := by
    rintro ⟨w, _, he⟩
    simp at he
  exact ⟨(C14_open_window_list _ _ 3 ['a']).2.2.1 hne hnf hno, hop,
    (C14_open_window_list _ _ 3 ['a']).2.1 hne (Or.inr hop)⟩

end TikzitModel
